import Mathlib

/-!
Verification development for the harp.gl tile-geometry scheduling core and
style technique resolution engine.  The definitions below are shallow
embeddings of the TypeScript sources:

* `TileGeometryLoader.ts` (PhasedTileGeometryLoader, SimpleTileGeometryLoader),
* `TileGeometryManager.ts` (PhasedTileGeometryManager, static/dynamic frames),
* `StyleSetEvaluator.ts` (render-order assignment, technique matching/caching,
  interpolated-property conversion).

State mutation in the source is modelled by explicit state passing; JS `Set`
objects become duplicate-free lists; `Float32Array` cells become `Option ℚ`
(`none` models a stored NaN, rationals stand in for floating point values);
external collaborators (TileGeometryCreator, PerformanceStatistics, MapView)
have no effect on the modelled state and are dropped, as noted at each use.
-/

namespace HarpSpec

/-- TileGeometryKind enumeration from TileGeometryLoader.ts (values 0..8). -/
inductive TileGeometryKind where
  | Background
  | Ground
  | Areas
  | Lines
  | Roads
  | Buildings
  | Labels
  | Pois
  | Details
deriving DecidableEq, Repr

/-- PhasedTileGeometryLoader private state.  `decodedTile` models whether
`m_decodedTile` is set (the payload itself never influences the loader
state), `geometryKindsLoaded` models the JS `Set` as a duplicate-free list,
`loadPhaseDefinitions` and `basicGeometryKinds` are the constructor
arguments, `currentPhaseIndex` is the phase cursor. -/
structure PhasedLoader where
  decodedTile : Bool
  isFinished : Bool
  geometryKindsLoaded : List TileGeometryKind
  loadPhaseDefinitions : List (List TileGeometryKind)
  basicGeometryKinds : List TileGeometryKind
  currentPhaseIndex : Nat
deriving DecidableEq, Repr

/-- Tile context of a phased loader: the data source's `cacheable` flag and
whether `tile.decodedTile` is currently set.  `removeDecodedTile()` clears
the latter. -/
structure LoaderSys where
  cacheable : Bool
  tileDecodedTile : Bool
  loader : PhasedLoader
deriving DecidableEq, Repr

/-- Constructor state of PhasedTileGeometryLoader. -/
def mkLoader (phases : List (List TileGeometryKind)) (basic : List TileGeometryKind) :
    PhasedLoader :=
  { decodedTile := false
    isFinished := false
    geometryKindsLoaded := []
    loadPhaseDefinitions := phases
    basicGeometryKinds := basic
    currentPhaseIndex := 0 }

/-- Loader together with its tile context, as right after construction. -/
def initTileSys (cacheable tileData : Bool) (phases : List (List TileGeometryKind))
    (basic : List TileGeometryKind) : LoaderSys :=
  { cacheable := cacheable, tileDecodedTile := tileData, loader := mkLoader phases basic }

/-- Method createKind: early-returns when the kind is already in the set,
otherwise records it and invokes the external TileGeometryCreator (which has
no effect on the loader state and is therefore dropped here). -/
def createKind (l : PhasedLoader) (kind : TileGeometryKind) : PhasedLoader :=
  if kind ∈ l.geometryKindsLoaded then l
  else { l with geometryKindsLoaded := l.geometryKindsLoaded ++ [kind] }

/-- Method setDecodedTile: reads `m_tile.decodedTile` (ignoring its
argument, as the source does), resets the phase cursor and clears the
loaded-kind set. -/
def setDecodedTile (sys : LoaderSys) : PhasedLoader :=
  { sys.loader with
    decodedTile := sys.tileDecodedTile
    currentPhaseIndex := 0
    geometryKindsLoaded := [] }

/-- Method nextPhase: increments the cursor while it is below the phase list
length, then returns the new cursor if it still addresses a phase. -/
def nextPhase (l : PhasedLoader) : Option Nat × PhasedLoader :=
  let l1 := if l.currentPhaseIndex < l.loadPhaseDefinitions.length then
      { l with currentPhaseIndex := l.currentPhaseIndex + 1 } else l
  (if l1.currentPhaseIndex < l1.loadPhaseDefinitions.length then
      some l1.currentPhaseIndex else none, l1)

/-- Method finish: clears `m_decodedTile`, calls `m_tile.removeDecodedTile()`
and sets `m_isFinished`. -/
def finishPhased (sys : LoaderSys) : LoaderSys :=
  { sys with
    tileDecodedTile := false
    loader := { sys.loader with decodedTile := false, isFinished := true } }

/-- Getter allGeometryLoaded: the cursor has advanced past the last phase. -/
def allGeometryLoaded (l : PhasedLoader) : Bool :=
  decide (l.currentPhaseIndex ≥ l.loadPhaseDefinitions.length)

/-- Getter basicGeometryLoaded: every basic kind is in the loaded set. -/
def basicGeometryLoaded (l : PhasedLoader) : Bool :=
  l.basicGeometryKinds.all (fun k => decide (k ∈ l.geometryKindsLoaded))

/-- Method dispose: drops the retained DecodedTile reference. -/
def dispose (l : PhasedLoader) : PhasedLoader :=
  { l with decodedTile := false }

/-- Method update of PhasedTileGeometryLoader.  Statistics bookkeeping has no
loader-visible effect and is dropped.  Returns the `didUpdate` flag together
with the updated state. -/
def update (sys : LoaderSys) : Bool × LoaderSys :=
  let s1 := if !sys.loader.decodedTile && sys.tileDecodedTile then
      { sys with loader := setDecodedTile sys } else sys
  if !s1.cacheable then
    (false, { s1 with loader :=
      { s1.loader with currentPhaseIndex := s1.loader.loadPhaseDefinitions.length } })
  else
    let currentPhase := s1.loader.currentPhaseIndex
    if !s1.loader.decodedTile ∨ currentPhase ≥ s1.loader.loadPhaseDefinitions.length then
      (false, s1)
    else
      let currentPhaseDefinition := s1.loader.loadPhaseDefinitions.getD currentPhase []
      let l2 := currentPhaseDefinition.foldl createKind s1.loader
      let (next, l3) := nextPhase l2
      let s3 := { s1 with loader := l3 }
      match next with
      | none => (true, finishPhased s3)
      | some _ => (true, s3)

/-- Fuel-based unfolding of the while loop in updateToPhase.  Every update
that returns true moves the cursor to its old value plus one or, after a
reset, to one, and a reset can occur at most once per loop, so fuel
`toPhase + 1` always covers the full loop: the recursion below never
exhausts its fuel when started by `updateToPhase`. -/
def updateToPhaseAux : Nat → Nat → LoaderSys → Bool → Bool × LoaderSys
  | 0, _, sys, didUpdate => (didUpdate, sys)
  | fuel + 1, toPhase, sys, didUpdate =>
    if sys.loader.currentPhaseIndex < toPhase then
      let (d, sys1) := update sys
      if d then updateToPhaseAux fuel toPhase sys1 d
      else (d, sys1)
    else (didUpdate, sys)

/-- Method updateToPhase: repeatedly calls update until the cursor reaches
`toPhase` or an update makes no progress; returns the last update result. -/
def updateToPhase (toPhase : Nat) (sys : LoaderSys) : Bool × LoaderSys :=
  updateToPhaseAux (toPhase + 1) toPhase sys false

/-- Iterated update calls (used to state the N-phase progress claims). -/
def iterUpdate : Nat → LoaderSys → LoaderSys
  | 0, sys => sys
  | n + 1, sys => (update (iterUpdate n sys)).2

/-- Operations applicable to a phased loader and its tile context: the four
loader methods plus the environment events that set or clear
`tile.decodedTile`. -/
inductive LoaderOp where
  | opSetDecodedTile
  | opUpdate
  | opUpdateToPhase (n : Nat)
  | opDispose
  | opDataArrives
  | opDataRemoved
deriving DecidableEq, Repr

/-- Interpretation of a single loader operation. -/
def applyLoaderOp (sys : LoaderSys) : LoaderOp → LoaderSys
  | LoaderOp.opSetDecodedTile => { sys with loader := setDecodedTile sys }
  | LoaderOp.opUpdate => (update sys).2
  | LoaderOp.opUpdateToPhase n => (updateToPhase n sys).2
  | LoaderOp.opDispose => { sys with loader := dispose sys.loader }
  | LoaderOp.opDataArrives => { sys with tileDecodedTile := true }
  | LoaderOp.opDataRemoved => { sys with tileDecodedTile := false }

/-- Run of a sequence of loader operations. -/
def runLoaderOps (sys : LoaderSys) (ops : List LoaderOp) : LoaderSys :=
  ops.foldl applyLoaderOp sys

/-- DefaultPhases of PhasedTileGeometryManager. -/
def DefaultPhases : List (List TileGeometryKind) :=
  [[TileGeometryKind.Background, TileGeometryKind.Ground, TileGeometryKind.Areas],
   [TileGeometryKind.Lines, TileGeometryKind.Roads],
   [TileGeometryKind.Buildings],
   [TileGeometryKind.Labels, TileGeometryKind.Pois],
   [TileGeometryKind.Details]]

/-- DefaultBasicGeometryKinds of PhasedTileGeometryManager. -/
def DefaultBasicGeometryKinds : List TileGeometryKind :=
  [TileGeometryKind.Background, TileGeometryKind.Ground, TileGeometryKind.Areas,
   TileGeometryKind.Lines]

/-- Method initTile of PhasedTileGeometryManager: attaches a fresh loader
with the manager's phase list and basic kinds. -/
def initTile (cacheable tileData : Bool) : LoaderSys :=
  initTileSys cacheable tileData DefaultPhases DefaultBasicGeometryKinds

/-- Private m_maximumUpdatesPerFrame of PhasedTileGeometryManager. -/
def maximumUpdatesPerFrame : Nat := 5

/-- Loop body of updateTilesIfNeeded: each visible tile is driven by
updateToPhase; when a tile reports work done the counter increases and, on a
dynamic frame with a positive cap, the loop breaks at the cap (remaining
tiles untouched). -/
def updateTilesIfNeededAux (isDynamicFrame : Bool) (toPhase : Nat) :
    List LoaderSys → Nat → List LoaderSys
  | [], _ => []
  | ts :: rest, numTilesUpdated =>
    let (d, ts1) := updateToPhase toPhase ts
    if d then
      if isDynamicFrame && decide (0 < maximumUpdatesPerFrame) &&
          decide (maximumUpdatesPerFrame ≤ numTilesUpdated + 1) then
        ts1 :: rest
      else
        ts1 :: updateTilesIfNeededAux isDynamicFrame toPhase rest (numTilesUpdated + 1)
    else
      ts1 :: updateTilesIfNeededAux isDynamicFrame toPhase rest numTilesUpdated

/-- Method updateTilesIfNeeded. -/
def updateTilesIfNeeded (isDynamicFrame : Bool) (toPhase : Nat)
    (tiles : List LoaderSys) : List LoaderSys :=
  updateTilesIfNeededAux isDynamicFrame toPhase tiles 0

/-- Computation of `lowestPhase` in updateTilesTogether: the running minimum
of the visible tiles' phase cursors (every modelled tile carries a loader,
so the undefined-loader guard of the source is always passed). -/
def lowestPhase (tiles : List LoaderSys) : Option Nat :=
  tiles.foldl (fun acc ts =>
    match acc with
    | none => some ts.loader.currentPhaseIndex
    | some l => if ts.loader.currentPhaseIndex < l then
        some ts.loader.currentPhaseIndex else some l) none

/-- Method updateTilesTogether (the static-frame policy): brings every tile
up to the lowest phase plus one, provided some tile is below the end of the
manager's phase list. -/
def updateTilesTogether (isDynamicFrame : Bool) (tiles : List LoaderSys) :
    List LoaderSys :=
  match lowestPhase tiles with
  | none => tiles
  | some l =>
    if l < DefaultPhases.length then updateTilesIfNeeded isDynamicFrame (l + 1) tiles
    else tiles

/-- Method checkTilesFinished: every visible tile's loader reports
allGeometryLoaded. -/
def checkTilesFinished (tiles : List LoaderSys) : Bool :=
  tiles.all (fun ts => allGeometryLoaded ts.loader)

/-- Iterated static frames: updateTiles on a non-dynamic MapView calls
updateTilesTogether; the trailing checkTilesFinished / mapView.update() pair
only requests a further frame and does not modify any tile. -/
def framesStatic : Nat → List LoaderSys → List LoaderSys
  | 0, tiles => tiles
  | n + 1, tiles => framesStatic n (updateTilesTogether false tiles)

/-- Running maximum of the phase cursors, the measure used by the spec's
static-mode invariant (max currentPhase minus min currentPhase). -/
def highestPhase (tiles : List LoaderSys) : Option Nat :=
  tiles.foldl (fun acc ts =>
    match acc with
    | none => some ts.loader.currentPhaseIndex
    | some l => if ts.loader.currentPhaseIndex > l then
        some ts.loader.currentPhaseIndex else some l) none

/-- Set-insertion of a batch of kinds into the loaded-kind set, the effect of
one phase worth of createKind calls on `m_geometryKindsLoaded`. -/
def addKinds (acc : List TileGeometryKind) (l : List TileGeometryKind) :
    List TileGeometryKind :=
  l.foldl (fun a k => if k ∈ a then a else a ++ [k]) acc

/-- Loaded-kind set after the first `k` phases of `ps` have been built. -/
def kindsUpTo (ps : List (List TileGeometryKind)) (k : Nat) : List TileGeometryKind :=
  (ps.take k).foldl addKinds []

/-- Closed form of the state reached after `k` update calls on a fresh
cacheable loader whose tile holds a DecodedTile (clamped at the number of
phases). -/
def c4StateAt (ps : List (List TileGeometryKind)) (bs : List TileGeometryKind)
    (k : Nat) : LoaderSys :=
  if k = 0 then initTileSys true true ps bs
  else if k < ps.length then
    { cacheable := true, tileDecodedTile := true,
      loader := { decodedTile := true, isFinished := false,
                  geometryKindsLoaded := kindsUpTo ps k,
                  loadPhaseDefinitions := ps, basicGeometryKinds := bs,
                  currentPhaseIndex := k } }
  else
    { cacheable := true, tileDecodedTile := false,
      loader := { decodedTile := false, isFinished := true,
                  geometryKindsLoaded := kindsUpTo ps ps.length,
                  loadPhaseDefinitions := ps, basicGeometryKinds := bs,
                  currentPhaseIndex := ps.length } }

/-- Invariant of the phased loader: every phase strictly below the cursor
has all its kinds in the loaded set. -/
def phasePrefixLoaded (l : PhasedLoader) : Prop :=
  ∀ i < l.currentPhaseIndex, ∀ k ∈ l.loadPhaseDefinitions.getD i [], k ∈ l.geometryKindsLoaded

/-- State of a SimpleTileGeometryLoader together with its tile and the task
queue of callbacks scheduled through setTimeout.  All scheduled callbacks
are the single deferred-build closure of prepareForRender, which always
captures a present DecodedTile, so the queue is modelled by its length.
`built` records whether createAllGeometries has been invoked,
`inVisibleSet` whether the tile is still in the VisibleTileSet. -/
structure SimpleWorld where
  tileDecodedTile : Bool
  disposed : Bool
  isVisible : Bool
  inVisibleSet : Bool
  mDecodedTile : Bool
  mIsFinished : Bool
  built : Bool
  pending : Nat
deriving DecidableEq, Repr

/-- Method finish of SimpleTileGeometryLoader: removeDecodedTile plus the
finished flag. -/
def simpleFinish (w : SimpleWorld) : SimpleWorld :=
  { w with tileDecodedTile := false, mIsFinished := true }

/-- Method prepareForRender: captures and clears `m_decodedTile`, bails out
when the payload is absent or the tile is disposed or invisible, and
otherwise schedules the deferred build callback (setTimeout with delay 0). -/
def prepareForRender (w : SimpleWorld) : SimpleWorld :=
  let captured := w.mDecodedTile
  let w1 := { w with mDecodedTile := false }
  if !captured || w1.disposed || !w1.isVisible then w1
  else { w1 with pending := w1.pending + 1 }

/-- Method update of SimpleTileGeometryLoader: when an unconsumed
DecodedTile is first observed, capture it, run prepareForRender and finish
synchronously; otherwise do nothing. -/
def simpleUpdate (w : SimpleWorld) : SimpleWorld :=
  if !w.mDecodedTile && w.tileDecodedTile then
    simpleFinish (prepareForRender { w with mDecodedTile := true })
  else w

/-- Execution of one scheduled deferred-build callback.  The callback checks
only `tile.isVisible`: when invisible it evicts the tile from the visible
tile set (visibleTileSet.disposeTile) and returns, otherwise it builds all
geometries and calls finish.  Statistics and requestUpdate are dropped. -/
def runDeferredStep (w : SimpleWorld) : SimpleWorld :=
  match w.pending with
  | 0 => w
  | p + 1 =>
    let w1 := { w with pending := p }
    if !w1.isVisible then { w1 with inVisibleSet := false }
    else simpleFinish { w1 with built := true }

/-- Method dispose of SimpleTileGeometryLoader. -/
def simpleDispose (w : SimpleWorld) : SimpleWorld :=
  { w with mDecodedTile := false }

/-- Getter isFinished of SimpleTileGeometryLoader. -/
def simpleIsFinished (w : SimpleWorld) : Bool := w.mIsFinished

/-- Getter basicGeometryLoaded of SimpleTileGeometryLoader. -/
def simpleBasicGeometryLoaded (w : SimpleWorld) : Bool := w.mIsFinished

/-- Getter allGeometryLoaded of SimpleTileGeometryLoader. -/
def simpleAllGeometryLoaded (w : SimpleWorld) : Bool := w.mIsFinished

/-- Operations on a simple loader world: the loader methods, one scheduler
tick delivering a deferred callback, and the external events that change
the tile (data arrival, visibility change, disposal). -/
inductive SimpleOp where
  | opUpdate
  | opRunDeferred
  | opDisposeLoader
  | opSetVisible (b : Bool)
  | opDisposeTile
  | opDataArrives
deriving DecidableEq, Repr

/-- Interpretation of a single simple-loader operation. -/
def applySimpleOp (w : SimpleWorld) : SimpleOp → SimpleWorld
  | SimpleOp.opUpdate => simpleUpdate w
  | SimpleOp.opRunDeferred => runDeferredStep w
  | SimpleOp.opDisposeLoader => simpleDispose w
  | SimpleOp.opSetVisible b => { w with isVisible := b }
  | SimpleOp.opDisposeTile => { w with disposed := true }
  | SimpleOp.opDataArrives => { w with tileDecodedTile := true }

/-- Run of a sequence of simple-loader operations. -/
def runSimpleOps (w : SimpleWorld) (ops : List SimpleOp) : SimpleWorld :=
  ops.foldl applySimpleOp w

/-- InterpolationMode enumeration (Discrete, Linear, Cubic). -/
inductive InterpolationMode where
  | Discrete
  | Linear
  | Cubic
deriving DecidableEq, Repr

/-- Scalar JS values occurring in interpolated property definitions.
Rationals stand in for JS numbers. -/
inductive JValue where
  | num (q : ℚ)
  | boolV (b : Bool)
  | str (s : String)
deriving DecidableEq, Repr

/-- InterpolatedPropertyDefinition: parallel zoom-level and value lists plus
an optional interpolation mode (the string-keyed enum lookup of the source
is modelled by carrying the mode directly). -/
structure InterpolatedPropertyDefinition where
  interpolation : Option InterpolationMode
  zoomLevels : List ℚ
  values : List JValue
deriving DecidableEq, Repr

/-- Result of createInterpolatedProperty.  The Float32Array cells are
`Option ℚ` where `none` models a stored NaN (an `undefined` written into a
typed array); float rounding is not modelled. -/
structure InterpolatedProperty where
  interpolationMode : InterpolationMode
  zoomLevels : List ℚ
  values : List (Option ℚ)
deriving DecidableEq, Repr

/-- Start index used by Array.prototype.splice: negative values count from
the end of the array and are clamped at zero, positive ones at the
length. -/
def jsSpliceIdx (len : Nat) (start : Int) : Nat :=
  if start < 0 then ((len : Int) + start).toNat else min start.toNat len

/-- Splice of exactly one element, splice(start, 1). -/
def spliceOne (l : List α) (start : Int) : List α :=
  let s := jsSpliceIdx l.length start
  l.take s ++ l.drop (s + 1)

/-- Loop of removeDuplicatePropertyValues, translated literally: on finding
an index whose zoom level first occurs earlier, the source executes
`p.zoomLevels.splice(--i, 1)` followed by `p.values.splice(--i, 1)`, i.e. it
splices the two arrays at indices i-1 and i-2 respectively and continues
from i-1 after the loop increment.  Indexing past the end or at negative
positions yields undefined, which compares unequal to every number.  The
loop variable can only move down by one net step per iteration while the
list shrinks, so the fuel passed by the wrapper below is never exhausted. -/
def removeDupAux : Nat → Int → List ℚ → List JValue → List ℚ × List JValue
  | 0, _, zs, vs => (zs, vs)
  | fuel + 1, i, zs, vs =>
    if i < (vs.length : Int) then
      let target : Option ℚ := if 0 ≤ i then zs.get? i.toNat else none
      let firstIdx : Int :=
        match zs.findIdx? (fun a => decide (some a = target)) with
        | some j => (j : Int)
        | none => -1
      if firstIdx ≠ i then
        removeDupAux fuel (i - 1) (spliceOne zs (i - 1)) (spliceOne vs (i - 2))
      else removeDupAux fuel (i + 1) zs vs
    else (zs, vs)

/-- Function removeDuplicatePropertyValues, acting on the two parallel lists
of an InterpolatedPropertyDefinition. -/
def removeDuplicatePropertyValues (zs : List ℚ) (vs : List JValue) :
    List ℚ × List JValue :=
  removeDupAux (2 * vs.length + 2) 0 zs vs

/-- Truthiness of a JS value, used by the boolean branch of
createInterpolatedProperty (`prop.values[i] ? 1 : 0`). -/
def jsTruthy : JValue → Bool
  | JValue.num q => decide (q ≠ 0)
  | JValue.boolV b => b
  | JValue.str s => decide (s ≠ "")

/-- Parse of an unsigned decimal integer literal; other numeric string forms
of full JS ToNumber are outside the model (none stands for NaN). -/
def parseDecNat (s : List Char) : Option Nat :=
  if s ≠ [] ∧ s.all Char.isDigit then
    some (s.foldl (fun acc c => acc * 10 + (c.toNat - 48)) 0)
  else none

/-- Parse of a hexadecimal digit. -/
def hexDigit (c : Char) : Option Nat :=
  if c.isDigit then some (c.toNat - 48)
  else if 97 ≤ c.toNat ∧ c.toNat ≤ 102 then some (c.toNat - 87)
  else if 65 ≤ c.toNat ∧ c.toNat ≤ 70 then some (c.toNat - 55)
  else none

/-- Parse of a nonempty hexadecimal digit string. -/
def parseHexNat (s : List Char) : Option Nat :=
  if s ≠ [] ∧ s.all (fun c => (hexDigit c).isSome) then
    some (s.foldl (fun acc c => acc * 16 + (hexDigit c).getD 0) 0)
  else none

/-- Model of `+((s).replace("#", "0x"))` for a color string: a leading hash
switches to hexadecimal, otherwise the string is read as an unsigned
decimal integer; `none` stands for NaN (malformed strings). -/
def jsParseColor (s : String) : Option Nat :=
  match s.data with
  | [] => none
  | c :: rest => if c = '#' then parseHexNat rest else parseDecNat s.data

/-- ToNumber conversion applied by a Float32Array built from a plain array
(default/number branch); string forms other than unsigned decimal integers
are outside the model. -/
def jsToNumber : JValue → Option ℚ
  | JValue.num q => some q
  | JValue.boolV b => some (if b then 1 else 0)
  | JValue.str s => (parseDecNat s.data).map (fun n => (n : ℚ))

/-- Red channel of a color string: bits 16..23 of the parsed value divided
by 255.  `((value >> 16) & 255)` on the JS int32 equals
`(value mod 2^32 / 2^16) mod 2^8` since 2^16 is divisible by 2^8; a NaN
value (failed parse) shifts to 0. -/
def redChannel (s : String) : ℚ :=
  ((((jsParseColor s).getD 0 % 2 ^ 32) / 2 ^ 16 % 2 ^ 8 : Nat) : ℚ) / 255

/-- Green channel of a color string: bits 8..15 divided by 255. -/
def greenChannel (s : String) : ℚ :=
  ((((jsParseColor s).getD 0 % 2 ^ 32) / 2 ^ 8 % 2 ^ 8 : Nat) : ℚ) / 255

/-- Blue channel of a color string: bits 0..7 divided by 255. -/
def blueChannel (s : String) : ℚ :=
  ((((jsParseColor s).getD 0 % 2 ^ 32) % 2 ^ 8 : Nat) : ℚ) / 255

/-- Channel triple of one color entry, as computed inside the string branch
of createInterpolatedProperty.  A non-string entry in the string branch
(heterogeneous input) would throw in the source; it is modelled loosely by
a zero triple and never reached for homogeneous inputs. -/
def colorChannels : JValue → List ℚ
  | JValue.str s => [redChannel s, greenChannel s, blueChannel s]
  | _ => [0, 0, 0]

/-- Write into a typed array: stores below the length, drops out-of-range
indices. -/
def setIdx (l : List α) (i : Nat) (v : α) : List α :=
  if i < l.length then l.set i v else l

/-- Inner loop of the string branch: for j from 0 to 3n-1 the source writes
`propValues[i*3+j] = channels[j]`, where channels[j] is undefined (stored as
NaN, modelled none) once j is 3 or larger. -/
def colorWriteLoop (n i : Nat) (channels : List ℚ) (acc : List (Option ℚ)) :
    List (Option ℚ) :=
  (List.range (3 * n)).foldl (fun a j => setIdx a (3 * i + j) (channels.get? j)) acc

/-- Function createInterpolatedProperty: dedup first, then branch on the
runtime type of the first value.  Statistics of the three generic
instantiations in processStyle all reach this same function. -/
def createInterpolatedProperty (prop : InterpolatedPropertyDefinition) :
    InterpolatedProperty :=
  let zv := removeDuplicatePropertyValues prop.zoomLevels prop.values
  let zs := zv.1
  let vs := zv.2
  match vs.head? with
  | some (JValue.boolV _) =>
    { interpolationMode := InterpolationMode.Discrete
      zoomLevels := zs
      values := vs.map (fun v => some (if jsTruthy v then (1 : ℚ) else 0)) }
  | some (JValue.str _) =>
    let n := vs.length
    let propValues :=
      (List.range n).foldl
        (fun acc i => colorWriteLoop n i (colorChannels (vs.getD i (JValue.num 0))) acc)
        (List.replicate (3 * n) (some (0 : ℚ)))
    { interpolationMode := prop.interpolation.getD InterpolationMode.Discrete
      zoomLevels := zs
      values := propValues }
  | _ =>
    { interpolationMode := prop.interpolation.getD InterpolationMode.Discrete
      zoomLevels := zs
      values := vs.map jsToNumber }

/-- Scalar values of feature attributes and style attributes. -/
inductive SValue where
  | ofInt (n : Int)
  | ofStr (s : String)
  | ofBool (b : Bool)
deriving DecidableEq, Repr

/-- Feature environment (MapEnv): a string-keyed scalar mapping. -/
abbrev Env : Type := List (String × SValue)

/-- Predicate language of when-expressions.  The source parses a string with
Expr.parse (external to this core's sources) and memoizes the parse in
_whenExpr, which has no semantic effect; evaluation of the compiled
expression against an environment is modelled by this small language. -/
inductive WhenPred where
  | always (b : Bool)
  | attrIs (k : String) (v : SValue)
  | andP (p q : WhenPred)
  | notP (p : WhenPred)
deriving DecidableEq, Repr

/-- Evaluation of a when-predicate in an environment. -/
def evalWhen : WhenPred → Env → Bool
  | WhenPred.always b, _ => b
  | WhenPred.attrIs k v, env =>
    match env.find? (fun kv => kv.1 = k) with
    | some kv => decide (kv.2 = v)
    | none => false
  | WhenPred.andP p q, env => evalWhen p env && evalWhen q env
  | WhenPred.notP p, env => !evalWhen p env

/-- Attribute values in a style's attr map: plain scalars or interpolated
property definitions. -/
inductive AttrVal where
  | plain (v : SValue)
  | interpolated (d : InterpolatedPropertyDefinition)
deriving DecidableEq, Repr

/-- Values of assembled technique properties. -/
inductive TechValue where
  | plain (v : SValue)
  | interpolated (p : InterpolatedProperty)
  | range (mn mx : Int)
deriving DecidableEq, Repr

/-- Assembled technique: a JS object modelled as an insertion-ordered
string-keyed record. -/
abbrev Technique : Type := List (String × TechValue)

/-- Property assignment on a JS object: overwrite in place or append. -/
def setProp (t : Technique) (k : String) (v : TechValue) : Technique :=
  if t.any (fun kv => kv.1 = k) then
    t.map (fun kv => if kv.1 = k then (k, v) else kv)
  else t ++ [(k, v)]

/-- Assignment on a style attr map, same JS object semantics. -/
def attrAssign (l : List (String × AttrVal)) (k : String) (v : AttrVal) :
    List (String × AttrVal) :=
  if l.any (fun kv => kv.1 = k) then
    l.map (fun kv => if kv.1 = k then (k, v) else kv)
  else l ++ [(k, v)]

/-- Lookup in a style attr map. -/
def attrGet (l : List (String × AttrVal)) (k : String) : Option AttrVal :=
  (l.find? (fun kv => kv.1 = k)).map (fun kv => kv.2)

/-- Data common to every style rule node.  `index` models the hidden _index
cache slot, `renderOrder` the (mutable) renderOrder field; the hidden
_renderOrderAuto is stored in the attr map under that key, as the source
does with `style.attr._renderOrderAuto`. -/
structure StyleData where
  whenCond : Option WhenPred
  technique : Option String
  attr : Option (List (String × AttrVal))
  renderOrder : Option Int
  renderOrderBiasGroup : Option String
  renderOrderBiasRange : Option (Int × Int)
  renderOrderBiasProperty : Option String
  labelProperty : Option String
  transient : Option Bool
  final : Option Bool
  index : Option Nat

/-- Style rule tree: a node either carries a sub-style array (style.styles
defined, the node is a group and its technique field is ignored) or not
(leaf). -/
inductive Style where
  | group (d : StyleData) (styles : List Style)
  | leaf (d : StyleData)

/-- State threaded through the constructor's render-order pass: the running
counter and the renderOrderBiasGroups map. -/
structure RoState where
  techniqueRenderOrder : Int
  renderOrderBiasGroups : List (String × Int)

/-- Lookup in the bias-group map. -/
def groupsGet (m : List (String × Int)) (g : String) : Option Int :=
  (m.find? (fun kv => kv.1 = g)).map (fun kv => kv.2)

/-- Map.set on the bias-group map. -/
def groupsSet (m : List (String × Int)) (g : String) (v : Int) : List (String × Int) :=
  if m.any (fun kv => kv.1 = g) then
    m.map (fun kv => if kv.1 = g then (g, v) else kv)
  else m ++ [(g, v)]

/-- Bias-group part of computeDefaultRenderOrder, applied to every node.
The stored group order is read only when the group name is truthy (non
empty), and a stored order of zero is falsy, so the else-if branch that
propagates a shared order is skipped for it.  The renderOrder-conflict
warning only logs and is dropped. -/
def computeBias (d : StyleData) (st : RoState) : StyleData × RoState :=
  match d.renderOrderBiasGroup with
  | none => (d, st)
  | some g =>
    let renderOrderBiasGroupOrder :=
      if g = "" then none else groupsGet st.renderOrderBiasGroups g
    match d.renderOrderBiasRange, renderOrderBiasGroupOrder with
    | some (minRange, maxRange), none =>
      let newOrder : Int :=
        if minRange < 0 then st.techniqueRenderOrder + (minRange.natAbs : Int)
        else st.techniqueRenderOrder
      let counter1 := st.techniqueRenderOrder + (minRange.natAbs : Int) + maxRange
      let groups1 :=
        if g = "" then st.renderOrderBiasGroups
        else groupsSet st.renderOrderBiasGroups g newOrder
      ({ d with renderOrder := some newOrder },
       { techniqueRenderOrder := counter1 + 1, renderOrderBiasGroups := groups1 })
    | _, some v =>
      if v ≠ 0 then ({ d with renderOrder := some v }, st) else (d, st)
    | none, none => (d, st)

/-- Leaf part of computeDefaultRenderOrder: a node with a technique and an
attr map that lacks an explicit renderOrder attribute receives the running
counter as _renderOrderAuto. -/
def assignAuto (d : StyleData) (st : RoState) : StyleData × RoState :=
  match d.technique with
  | none => (d, st)
  | some _ =>
    match d.attr with
    | none => (d, st)
    | some attrs =>
      if attrGet attrs "renderOrder" = none then
        ({ d with attr := some (attrAssign attrs "_renderOrderAuto"
            (AttrVal.plain (SValue.ofInt st.techniqueRenderOrder))) },
         { st with techniqueRenderOrder := st.techniqueRenderOrder + 1 })
      else (d, st)

mutual
/-- Recursive closure computeDefaultRenderOrder of the StyleSetEvaluator
constructor, as a tree transformation threading the counter and group map.
Validation of the child-list shape only logs and is dropped. -/
def computeDefaultRenderOrder : Style → RoState → Style × RoState
  | Style.group d styles, st =>
    let p1 := computeBias d st
    let p2 := computeDefaultRenderOrderList styles p1.2
    (Style.group p1.1 p2.1, p2.2)
  | Style.leaf d, st =>
    let p1 := computeBias d st
    let p2 := assignAuto p1.1 p1.2
    (Style.leaf p2.1, p2.2)

/-- Traversal of a sub-style list by computeDefaultRenderOrder. -/
def computeDefaultRenderOrderList : List Style → RoState → List Style × RoState
  | [], st => ([], st)
  | s :: rest, st =>
    let p1 := computeDefaultRenderOrder s st
    let p2 := computeDefaultRenderOrderList rest p1.2
    (p1.1 :: p2.1, p2.2)
end

/-- StyleSetEvaluator construction: the render-order pass over the style
set starting from counter 0 and an empty bias-group map. -/
def styleSetInit (styleSet : List Style) : List Style × RoState :=
  computeDefaultRenderOrderList styleSet { techniqueRenderOrder := 0, renderOrderBiasGroups := [] }

/-- Conversion of one attr value during technique assembly: interpolated
property definitions go through createInterpolatedProperty, plain values
are copied. -/
def techValueOf : AttrVal → TechValue
  | AttrVal.plain v => TechValue.plain v
  | AttrVal.interpolated d => TechValue.interpolated (createInterpolatedProperty d)

/-- Closure addAttributes of processStyle: copies the special style fields
and then every attr property (in insertion order) onto the technique,
descendant entries overriding ancestor ones by JS assignment. -/
def addAttributes (tech : Technique) (d : StyleData) : Technique :=
  let t1 := match d.renderOrder with
    | some r => setProp tech "renderOrder" (TechValue.plain (SValue.ofInt r))
    | none => tech
  let t2 := match d.transient with
    | some b => setProp t1 "transient" (TechValue.plain (SValue.ofBool b))
    | none => t1
  let t3 := match d.renderOrderBiasProperty with
    | some s => setProp t2 "renderOrderBiasProperty" (TechValue.plain (SValue.ofStr s))
    | none => t2
  let t4 := match d.labelProperty with
    | some s => setProp t3 "label" (TechValue.plain (SValue.ofStr s))
    | none => t3
  let t5 := match d.renderOrderBiasRange with
    | some (mn, mx) => setProp t4 "renderOrderBiasRange" (TechValue.range mn mx)
    | none => t4
  let t6 := match d.renderOrderBiasGroup with
    | some g => setProp t5 "renderOrderBiasGroup" (TechValue.plain (SValue.ofStr g))
    | none => t5
  match d.attr with
  | some attrs => attrs.foldl (fun t kv => setProp t kv.1 (techValueOf kv.2)) t6
  | none => t6

/-- Technique assembly for a leaf: a fresh object with the technique name,
then addAttributes over every ancestor on the style stack followed by the
leaf itself. -/
def assembleTechnique (stack : List StyleData) (d : StyleData) (name : String) :
    Technique :=
  (stack ++ [d]).foldl addAttributes [("name", TechValue.plain (SValue.ofStr name))]

/-- Guard of processStyle: a defined when-expression that evaluates to
false rejects the node. -/
def whenFails (d : StyleData) (env : Env) : Bool :=
  match d.whenCond with
  | some p => !evalWhen p env
  | none => false

mutual
/-- Method processStyle.  Returns the stop flag (style.final === true on a
matched leaf), the updated style subtree (the _index cache slot may have
been filled), the updated m_techniques table and the technique indices
appended to the result by this subtree.  Result elements are technique
table indices: two result entries denote reference-identical Technique
objects exactly when they are equal indices into equal tables.  checkAdd
Technique is inlined in the leaf branch, including the technique._index
property write; validate-only branches (logging) are dropped. -/
def processStyle (env : Env) (stack : List StyleData) :
    Style → List Technique → Bool × Style × List Technique × List Nat
  | Style.group d styles, techniques =>
    if whenFails d env then (false, Style.group d styles, techniques, [])
    else
      let r := processStyleList env (stack ++ [d]) styles techniques
      (r.1, Style.group d r.2.1, r.2.2.1, r.2.2.2)
  | Style.leaf d, techniques =>
    if whenFails d env then (false, Style.leaf d, techniques, [])
    else
      match d.technique with
      | some name =>
        match d.index with
        | none =>
          let idx := techniques.length
          let tech := setProp (assembleTechnique stack d name) "_index"
            (TechValue.plain (SValue.ofInt (idx : Int)))
          (decide (d.final = some true), Style.leaf { d with index := some idx },
           techniques ++ [tech], [idx])
        | some idx => (decide (d.final = some true), Style.leaf d, techniques, [idx])
      | none => (false, Style.leaf d, techniques, [])

/-- Iteration of processStyle over a sub-style list, stopping at the first
child that returns true (the final-flag break). -/
def processStyleList (env : Env) (stack : List StyleData) :
    List Style → List Technique → Bool × List Style × List Technique × List Nat
  | [], techniques => (false, [], techniques, [])
  | s :: rest, techniques =>
    let r := processStyle env stack s techniques
    if r.1 then (true, r.2.1 :: rest, r.2.2.1, r.2.2.2)
    else
      let r2 := processStyleList env stack rest r.2.2.1
      (r2.1, r.2.1 :: r2.2.1, r2.2.2.1, r.2.2.2 ++ r2.2.2.2)
end

/-- Evaluator state visible to getMatchingTechniques: the (annotated) style
set and the m_techniques table. -/
structure EvalState where
  styleSet : List Style
  techniques : List Technique

/-- Method getMatchingTechniques: walks the top-level styles with an empty
style stack, breaking when a final leaf matched; returns the matched
technique indices and the updated evaluator state. -/
def getMatchingTechniques (env : Env) (st : EvalState) : List Nat × EvalState :=
  let r := processStyleList env [] st.styleSet st.techniques
  (r.2.2.2, { styleSet := r.2.1, techniques := r.2.2.1 })

/-- Collector for the C3 statements: the _renderOrderAuto values (as stored
in the attr maps) of the qualifying leaves, in document order.  A leaf
qualifies when it has a technique and an attr map without an explicit
renderOrder attribute, the exact condition under which the constructor
assigns an automatic order. -/
def autoOf (d : StyleData) : Option Int :=
  match d.attr with
  | none => none
  | some attrs =>
    match attrGet attrs "_renderOrderAuto" with
    | some (AttrVal.plain (SValue.ofInt v)) => some v
    | _ => none

/-- Qualifying-leaf test for the automatic render-order assignment. -/
def autoQualifies (d : StyleData) : Bool :=
  d.technique.isSome &&
    (match d.attr with
     | some attrs => decide (attrGet attrs "renderOrder" = none)
     | none => false)

mutual
/-- Collected automatic render orders of qualifying leaves, document order. -/
def collectAutos : Style → List (Option Int)
  | Style.group _ styles => collectAutosList styles
  | Style.leaf d => if autoQualifies d then [autoOf d] else []

/-- List version of collectAutos. -/
def collectAutosList : List Style → List (Option Int)
  | [] => []
  | s :: rest => collectAutos s ++ collectAutosList rest
end

mutual
/-- RenderOrder fields of all nodes carrying the given bias group, document
order (the processing order of computeDefaultRenderOrder). -/
def groupMembers (g : String) : Style → List (Option Int)
  | Style.group d styles =>
    (if d.renderOrderBiasGroup = some g then [d.renderOrder] else []) ++
      groupMembersList g styles
  | Style.leaf d =>
    if d.renderOrderBiasGroup = some g then [d.renderOrder] else []

/-- List version of groupMembers. -/
def groupMembersList (g : String) : List Style → List (Option Int)
  | [] => []
  | s :: rest => groupMembers g s ++ groupMembersList g rest
end

/-- Node-level part of rangesOk. -/
def rangesOkData (d : StyleData) : Bool :=
  match d.renderOrderBiasRange with
  | some (_, mx) => decide (0 ≤ mx)
  | none => true

mutual
/-- Check that every bias range in a tree has a non-negative upper bound
(the condition under which the counter never moves backwards). -/
def rangesOk : Style → Bool
  | Style.group d styles => rangesOkData d && rangesOkList styles
  | Style.leaf d => rangesOkData d

/-- List version of rangesOk. -/
def rangesOkList : List Style → Bool
  | [] => true
  | s :: rest => rangesOk s && rangesOkList rest
end

/-- StyleData with every optional field absent (convenient base for
concrete style rules). -/
def emptyStyleData : StyleData :=
  { whenCond := none, technique := none, attr := none, renderOrder := none,
    renderOrderBiasGroup := none, renderOrderBiasRange := none,
    renderOrderBiasProperty := none, labelProperty := none, transient := none,
    final := none, index := none }

/-- Node-level part of groupRanged. -/
def groupRangedData (g : String) (d : StyleData) : Bool :=
  decide (d.renderOrderBiasGroup ≠ some g) || d.renderOrderBiasRange.isSome

/-- Comparison used to state strict increase of automatic render orders. -/
def autoLtB : Option Int → Option Int → Bool
  | some x, some y => decide (x < y)
  | _, _ => false

/-- Strict chain test on collected automatic render orders. -/
def chainLt : List (Option Int) → Bool
  | [] => true
  | [_] => true
  | a :: b :: rest => autoLtB a b && chainLt (b :: rest)

/-- All collected autos are assigned and lie in the half-open interval. -/
def autosBetween (lo hi : Int) (l : List (Option Int)) : Bool :=
  l.all fun o =>
    match o with
    | some v => decide (lo ≤ v ∧ v < hi)
    | none => false

/-- Leaf with a technique and an empty attr map: receives an automatic order. -/
def cs3a : Style :=
  Style.leaf
    { emptyStyleData with
        technique := some "t"
        attr := some [] }

/-- Leaf with a technique but no attr map: receives nothing. -/
def cs3b : Style := Style.leaf { emptyStyleData with technique := some "t" }

/-- Bias-group "g" leaf whose range has a negative upper bound: moves the
counter backwards. -/
def cs3c : Style :=
  Style.leaf
    { emptyStyleData with
        renderOrderBiasGroup := some "g"
        renderOrderBiasRange := some (0, -5) }

/-- Bias-group "h" leaf whose derived order is zero. -/
def cs3e : Style :=
  Style.leaf
    { emptyStyleData with
        renderOrderBiasGroup := some "h"
        renderOrderBiasRange := some (-2, 0) }

/-- Later member of bias group "h" without a range. -/
def cs3f : Style :=
  Style.leaf { emptyStyleData with renderOrderBiasGroup := some "h" }

/-- Style set refuting the literal C3 statement. -/
def cset3 : List Style := [cs3a, cs3b, cs3c, cs3a, cs3e, cs3f]

/-- Group node carrying bias group "g" with range (-2, 3). -/
def csWg : Style :=
  Style.group
    { emptyStyleData with
        renderOrderBiasGroup := some "g"
        renderOrderBiasRange := some (-2, 3) }
    [cs3a]

/-- Well-behaved style set (all range upper bounds non-negative). -/
def csetW : List Style := [cs3a, csWg, cs3a]

/-- Concrete node and state for the first-member derivation instance. -/
def dW : StyleData :=
  { emptyStyleData with
      renderOrderBiasGroup := some "g"
      renderOrderBiasRange := some (-2, 3) }

def stW : RoState := { techniqueRenderOrder := 5, renderOrderBiasGroups := [] }

/-- Concrete list and state for the propagation instance. -/
def lW : List Style :=
  [Style.leaf { emptyStyleData with renderOrderBiasGroup := some "g" }]

def stW2 : RoState :=
  { techniqueRenderOrder := 0, renderOrderBiasGroups := [("g", 7)] }

/-- Invariant carried by the static-mode manager proof (amended C1): every
visible tile is cacheable, runs the manager's phase list, has its cursor in
range and within one phase of the minimum, and a loader not holding its
DecodedTile sits either at the start or past the end. -/
def C1Inv (tiles : List LoaderSys) : Prop :=
  ∀ ts ∈ tiles,
    ts.cacheable = true ∧
    ts.loader.loadPhaseDefinitions = DefaultPhases ∧
    ts.loader.currentPhaseIndex ≤ DefaultPhases.length ∧
    (ts.loader.decodedTile = false →
      ts.loader.currentPhaseIndex = 0 ∨
      ts.loader.currentPhaseIndex = DefaultPhases.length) ∧
    (∀ L, lowestPhase tiles = some L → ts.loader.currentPhaseIndex ≤ L + 1)

/-!
## Theorems

Helper lemmas first, then one theorem per claim (with witnesses and
counterexamples where required).
-/

/-- Unfolding of createKind as a pure update of the loaded-kind set. -/
theorem createKind_eq (l : PhasedLoader) (k : TileGeometryKind) :
    createKind l k = { l with geometryKindsLoaded :=
      if k ∈ l.geometryKindsLoaded then l.geometryKindsLoaded
      else l.geometryKindsLoaded ++ [k] } := by
  unfold createKind
  split <;> simp_all

/-- Folding createKind over a phase definition only grows the loaded-kind
set by addKinds. -/
theorem foldl_createKind (defn : List TileGeometryKind) (l : PhasedLoader) :
    defn.foldl createKind l =
      { l with geometryKindsLoaded := addKinds l.geometryKindsLoaded defn } := by
  induction defn generalizing l with
  | nil => rfl
  | cons k rest ih =>
    rw [List.foldl_cons, ih, createKind_eq]
    simp [addKinds]

/-- Successor unfolding of kindsUpTo below the phase-list length. -/
theorem kindsUpTo_succ (ps : List (List TileGeometryKind)) (k : Nat)
    (hk : k < ps.length) :
    kindsUpTo ps (k + 1) = addKinds (kindsUpTo ps k) (ps.getD k []) := by
  unfold kindsUpTo
  rw [List.take_succ]
  have h1 : ps[k]? = some (ps.getD k []) := by
    rw [List.getD_eq_getElem?_getD]
    cases h : ps[k]? with
    | none => rw [List.getElem?_eq_none_iff] at h; omega
    | some v => rfl
  rw [h1]
  simp [List.foldl_append]

/-- Unfolding of nextPhase when the cursor is still below the end. -/
theorem nextPhase_of_lt (l : PhasedLoader)
    (h : l.currentPhaseIndex < l.loadPhaseDefinitions.length) :
    nextPhase l =
      (if l.currentPhaseIndex + 1 < l.loadPhaseDefinitions.length
       then some (l.currentPhaseIndex + 1) else none,
       { l with currentPhaseIndex := l.currentPhaseIndex + 1 }) := by
  unfold nextPhase
  rw [if_pos h]

/-- Behavior of update on a cacheable loader holding a DecodedTile with a
phase left to build: it builds the current phase, advances the cursor, and
finishes exactly when the cursor reaches the end. -/
theorem update_active (sys : LoaderSys) (hc : sys.cacheable = true)
    (hdec : sys.loader.decodedTile = true)
    (hp : sys.loader.currentPhaseIndex < sys.loader.loadPhaseDefinitions.length) :
    update sys =
      (true,
        if sys.loader.currentPhaseIndex + 1 < sys.loader.loadPhaseDefinitions.length
        then { sys with loader := { sys.loader with
          geometryKindsLoaded := addKinds sys.loader.geometryKindsLoaded
            (sys.loader.loadPhaseDefinitions.getD sys.loader.currentPhaseIndex [])
          currentPhaseIndex := sys.loader.currentPhaseIndex + 1 } }
        else finishPhased { sys with loader := { sys.loader with
          geometryKindsLoaded := addKinds sys.loader.geometryKindsLoaded
            (sys.loader.loadPhaseDefinitions.getD sys.loader.currentPhaseIndex [])
          currentPhaseIndex := sys.loader.currentPhaseIndex + 1 } }) := by
  obtain ⟨c, td, l⟩ := sys
  obtain ⟨dec, fin, kinds, ps, bas, p⟩ := l
  simp only at hc hdec hp
  subst hc; subst hdec
  simp only [update, Bool.not_true, Bool.false_and, Bool.false_eq_true, if_false,
    if_neg (by simp : ¬ (!true = true))]
  rw [if_neg (by simp; omega)]
  rw [foldl_createKind]
  rw [nextPhase_of_lt _ (by simpa using hp)]
  simp only
  by_cases h1 : p + 1 < ps.length
  · rw [if_pos (by simpa using h1), if_pos h1]
  · rw [if_neg (by simpa using h1), if_neg h1]

/-- Update first captures a freshly arrived DecodedTile (resetting cursor
and kinds) and then behaves like an update on the captured state. -/
theorem update_reset_eq (sys : LoaderSys)
    (hdec : sys.loader.decodedTile = false) (htd : sys.tileDecodedTile = true) :
    update sys = update { sys with loader := setDecodedTile sys } := by
  obtain ⟨c, td, l⟩ := sys
  obtain ⟨dec, fin, kinds, ps, bas, p⟩ := l
  simp only at hdec htd
  subst hdec; subst htd
  conv_lhs => rw [update]
  conv_rhs => rw [update]
  simp [setDecodedTile]

/-- Update is a no-op returning false when no DecodedTile is held and none
is offered by the tile (cacheable data source). -/
theorem update_idle (sys : LoaderSys) (hc : sys.cacheable = true)
    (hdec : sys.loader.decodedTile = false) (htd : sys.tileDecodedTile = false) :
    update sys = (false, sys) := by
  obtain ⟨c, td, l⟩ := sys
  obtain ⟨dec, fin, kinds, ps, bas, p⟩ := l
  simp only at hc hdec htd
  subst hc; subst hdec; subst htd
  simp [update]

/-- Update is a no-op returning false when the cursor is already past the
last phase and the loader still holds its DecodedTile flag state. -/
theorem update_past (sys : LoaderSys) (hc : sys.cacheable = true)
    (hdec : sys.loader.decodedTile = true)
    (hp : sys.loader.loadPhaseDefinitions.length ≤ sys.loader.currentPhaseIndex) :
    update sys = (false, sys) := by
  obtain ⟨c, td, l⟩ := sys
  obtain ⟨dec, fin, kinds, ps, bas, p⟩ := l
  simp only at hc hdec hp
  subst hc; subst hdec
  rw [update]
  simp only [Bool.not_true, Bool.false_and, Bool.false_eq_true, if_false,
    if_neg (by simp : ¬ (!true = true))]
  rw [if_pos (by simp; omega)]

/-- One update call advances the C4 closed-form state by one step while the
cursor is below the number of phases. -/
theorem update_c4_step (ps : List (List TileGeometryKind)) (bs : List TileGeometryKind)
    (k : Nat) (hk : k < ps.length) :
    update (c4StateAt ps bs k) = (true, c4StateAt ps bs (k + 1)) := by
  have hkind1 : kindsUpTo ps 1 = addKinds [] (ps.getD 0 []) := by
    have h3 := kindsUpTo_succ ps 0 (by omega)
    simpa [kindsUpTo] using h3
  rcases Nat.eq_zero_or_pos k with hk0 | hkpos
  · subst hk0
    rw [show c4StateAt ps bs 0 = initTileSys true true ps bs from rfl]
    rw [update_reset_eq _ (by rfl) (by rfl)]
    rw [update_active _ (by rfl) (by simp [setDecodedTile, initTileSys, mkLoader]) (by
      simpa [setDecodedTile, initTileSys, mkLoader] using hk)]
    simp only [setDecodedTile, initTileSys, mkLoader]
    by_cases h1 : 1 < ps.length
    · rw [if_pos (by simpa using h1)]
      simp only [c4StateAt, if_neg (by omega : ¬ (0 + 1 = 0)), if_pos (by omega : 0 + 1 < ps.length)]
      rw [hkind1]
    · rw [if_neg (by simpa using h1)]
      have hl1 : ps.length = 1 := by omega
      simp only [finishPhased, c4StateAt, if_neg (by omega : ¬ (0 + 1 = 0)),
        if_neg (by omega : ¬ (0 + 1 < ps.length))]
      rw [hl1, hkind1]
  · have hc4 : c4StateAt ps bs k =
        { cacheable := true
          tileDecodedTile := true
          loader := { decodedTile := true
                      isFinished := false
                      geometryKindsLoaded := kindsUpTo ps k
                      loadPhaseDefinitions := ps
                      basicGeometryKinds := bs
                      currentPhaseIndex := k } } := by
      simp only [c4StateAt, if_neg (by omega : ¬ (k = 0)), if_pos hk]
    rw [hc4]
    rw [update_active _ (by rfl) (by rfl) (by simpa using hk)]
    simp only
    by_cases h1 : k + 1 < ps.length
    · rw [if_pos (by simpa using h1)]
      simp only [c4StateAt, if_neg (by omega : ¬ (k + 1 = 0)), if_pos h1]
      rw [kindsUpTo_succ ps k hk]
    · rw [if_neg (by simpa using h1)]
      have hl1 : ps.length = k + 1 := by omega
      simp only [finishPhased, c4StateAt, if_neg (by omega : ¬ (k + 1 = 0)),
        if_neg (by omega : ¬ (k + 1 < ps.length))]
      rw [hl1, kindsUpTo_succ ps k hk]

/-- Update is a no-op returning false on the finished C4 closed-form
state. -/
theorem update_c4_finished (ps : List (List TileGeometryKind))
    (bs : List TileGeometryKind) (hN : 0 < ps.length) :
    update (c4StateAt ps bs ps.length) = (false, c4StateAt ps bs ps.length) := by
  have hc4 : c4StateAt ps bs ps.length =
      { cacheable := true
        tileDecodedTile := false
        loader := { decodedTile := false
                    isFinished := true
                    geometryKindsLoaded := kindsUpTo ps ps.length
                    loadPhaseDefinitions := ps
                    basicGeometryKinds := bs
                    currentPhaseIndex := ps.length } } := by
    simp only [c4StateAt, if_neg (by omega : ¬ (ps.length = 0)),
      if_neg (by omega : ¬ (ps.length < ps.length))]
  rw [hc4]
  exact update_idle _ (by rfl) (by rfl) (by rfl)

/-- Closed form of iterated updates from a fresh cacheable loader with a
DecodedTile: the k-th state is c4StateAt at the clamped index. -/
theorem iterUpdate_c4 (ps : List (List TileGeometryKind)) (bs : List TileGeometryKind)
    (hN : 0 < ps.length) (k : Nat) :
    iterUpdate k (initTileSys true true ps bs) = c4StateAt ps bs (min k ps.length) := by
  induction k with
  | zero => simp [iterUpdate, c4StateAt, Nat.min_eq_left (by omega : 0 ≤ ps.length)]
  | succ n ih =>
    rw [iterUpdate, ih]
    by_cases h : n < ps.length
    · rw [Nat.min_eq_left (by omega : n ≤ ps.length)] at *
      rw [update_c4_step ps bs n h]
      by_cases h2 : n + 1 < ps.length
      · rw [Nat.min_eq_left (by omega)]
      · rw [Nat.min_eq_right (by omega)]
        have : n + 1 = ps.length := by omega
        rw [this]
    · rw [Nat.min_eq_right (by omega : ps.length ≤ n),
        Nat.min_eq_right (by omega : ps.length ≤ n + 1)]
      rw [update_c4_finished ps bs hN]

/-- Phase cursor of the C4 closed-form state. -/
theorem c4StateAt_phase (ps : List (List TileGeometryKind)) (bs : List TileGeometryKind)
    (k : Nat) (hk : k ≤ ps.length) :
    (c4StateAt ps bs k).loader.currentPhaseIndex = k := by
  unfold c4StateAt
  split
  · simp [initTileSys, mkLoader]; omega
  · split
    · rfl
    · simp only; omega

/-- Phase definitions of the C4 closed-form state. -/
theorem c4StateAt_phases (ps : List (List TileGeometryKind)) (bs : List TileGeometryKind)
    (k : Nat) : (c4StateAt ps bs k).loader.loadPhaseDefinitions = ps := by
  unfold c4StateAt
  split
  · rfl
  · split <;> rfl

/-- C4: for every PhasedTileGeometryLoader over N phases (N positive) whose
tile holds a DecodedTile and whose data source is cacheable, each of the
first N update calls returns true and advances currentPhase by exactly one;
allGeometryLoaded is false before the N-th call and true from the N-th call
on; and any further update call returns false and leaves the state
untouched. -/
theorem c4_phased_update_progress (ps : List (List TileGeometryKind))
    (bs : List TileGeometryKind) (hN : 0 < ps.length) :
    (∀ k, k < ps.length →
      (update (iterUpdate k (initTileSys true true ps bs))).1 = true ∧
      (iterUpdate (k + 1) (initTileSys true true ps bs)).loader.currentPhaseIndex =
        (iterUpdate k (initTileSys true true ps bs)).loader.currentPhaseIndex + 1) ∧
    (∀ k, k < ps.length →
      allGeometryLoaded (iterUpdate k (initTileSys true true ps bs)).loader = false) ∧
    (∀ k, ps.length ≤ k →
      allGeometryLoaded (iterUpdate k (initTileSys true true ps bs)).loader = true) ∧
    (∀ k, ps.length ≤ k →
      update (iterUpdate k (initTileSys true true ps bs)) =
        (false, iterUpdate k (initTileSys true true ps bs))) := by
  refine ⟨?_, ?_, ?_, ?_⟩
  · intro k hk
    rw [iterUpdate_c4 ps bs hN k, iterUpdate_c4 ps bs hN (k + 1),
      Nat.min_eq_left (by omega : k ≤ ps.length)]
    constructor
    · rw [update_c4_step ps bs k hk]
    · rw [c4StateAt_phase ps bs k (by omega)]
      by_cases h2 : k + 1 < ps.length
      · rw [Nat.min_eq_left (by omega), c4StateAt_phase ps bs (k + 1) (by omega)]
      · rw [Nat.min_eq_right (by omega), c4StateAt_phase ps bs ps.length (by omega)]
        omega
  · intro k hk
    rw [iterUpdate_c4 ps bs hN k, Nat.min_eq_left (by omega : k ≤ ps.length)]
    simp only [allGeometryLoaded, c4StateAt_phase ps bs k (by omega), c4StateAt_phases]
    simp
    omega
  · intro k hk
    rw [iterUpdate_c4 ps bs hN k, Nat.min_eq_right (by omega : ps.length ≤ k)]
    simp only [allGeometryLoaded, c4StateAt_phase ps bs ps.length (by omega), c4StateAt_phases]
    simp
  · intro k hk
    rw [iterUpdate_c4 ps bs hN k, Nat.min_eq_right (by omega : ps.length ≤ k)]
    exact update_c4_finished ps bs hN

/-- Witness for C4 at the default five-phase configuration. -/
theorem c4_phased_update_progress_witness :
    0 < DefaultPhases.length ∧
    allGeometryLoaded (iterUpdate 4
      (initTileSys true true DefaultPhases DefaultBasicGeometryKinds)).loader = false ∧
    allGeometryLoaded (iterUpdate 5
      (initTileSys true true DefaultPhases DefaultBasicGeometryKinds)).loader = true ∧
    update (iterUpdate 5 (initTileSys true true DefaultPhases DefaultBasicGeometryKinds)) =
      (false, iterUpdate 5 (initTileSys true true DefaultPhases DefaultBasicGeometryKinds)) :=
  ⟨by decide,
   (c4_phased_update_progress DefaultPhases DefaultBasicGeometryKinds (by decide)).2.1
     4 (by decide),
   (c4_phased_update_progress DefaultPhases DefaultBasicGeometryKinds (by decide)).2.2.1
     5 (by decide),
   (c4_phased_update_progress DefaultPhases DefaultBasicGeometryKinds (by decide)).2.2.2
     5 (by decide)⟩

/-- C5: a loader whose data source is non-cacheable reaches
allGeometryLoaded after a single update call, with zero geometry kinds
recorded, and is treated as finished by the manager's completion check;
the call itself reports no work done. -/
theorem c5_noncacheable_short_circuit (td : Bool) (ps : List (List TileGeometryKind))
    (bs : List TileGeometryKind) :
    allGeometryLoaded (update (initTileSys false td ps bs)).2.loader = true ∧
    (update (initTileSys false td ps bs)).2.loader.geometryKindsLoaded = [] ∧
    checkTilesFinished [(update (initTileSys false td ps bs)).2] = true ∧
    (update (initTileSys false td ps bs)).1 = false := by
  cases td <;>
    simp [update, initTileSys, mkLoader, setDecodedTile, allGeometryLoaded,
      checkTilesFinished]

/-- Membership in addKinds is membership in either argument. -/
theorem mem_addKinds (l : List TileGeometryKind) (acc : List TileGeometryKind)
    (x : TileGeometryKind) : x ∈ addKinds acc l ↔ x ∈ acc ∨ x ∈ l := by
  induction l generalizing acc with
  | nil => simp [addKinds]
  | cons k rest ih =>
    rw [addKinds, List.foldl_cons,
      show List.foldl (fun a k => if k ∈ a then a else a ++ [k])
        (if k ∈ acc then acc else acc ++ [k]) rest =
        addKinds (if k ∈ acc then acc else acc ++ [k]) rest from rfl, ih]
    by_cases h : k ∈ acc
    · simp only [if_pos h]
      constructor
      · rintro (hx | hx)
        · exact Or.inl hx
        · exact Or.inr (List.mem_cons_of_mem _ hx)
      · rintro (hx | hx)
        · exact Or.inl hx
        · rcases List.mem_cons.mp hx with hx | hx
          · subst hx; exact Or.inl h
          · exact Or.inr hx
    · simp only [if_neg h, List.mem_append, List.mem_singleton, List.mem_cons]
      tauto

/-- The reset state produced by setDecodedTile satisfies the prefix
invariant vacuously. -/
theorem setDecodedTile_inv (sys : LoaderSys) :
    phasePrefixLoaded (setDecodedTile sys) := by
  intro i hi
  simp [setDecodedTile] at hi

/-- Update preserves the prefix invariant and the loader configuration on a
cacheable tile. -/
theorem update_inv (sys : LoaderSys) (hc : sys.cacheable = true)
    (h : phasePrefixLoaded sys.loader) :
    phasePrefixLoaded (update sys).2.loader ∧
    (update sys).2.cacheable = true ∧
    (update sys).2.loader.loadPhaseDefinitions = sys.loader.loadPhaseDefinitions ∧
    (update sys).2.loader.basicGeometryKinds = sys.loader.basicGeometryKinds := by
  have key : ∀ t : LoaderSys, t.cacheable = true → t.loader.decodedTile = true →
      phasePrefixLoaded t.loader →
      phasePrefixLoaded (update t).2.loader ∧
      (update t).2.cacheable = true ∧
      (update t).2.loader.loadPhaseDefinitions = t.loader.loadPhaseDefinitions ∧
      (update t).2.loader.basicGeometryKinds = t.loader.basicGeometryKinds := by
    intro t htc htdec hinv
    by_cases hp : t.loader.currentPhaseIndex < t.loader.loadPhaseDefinitions.length
    · rw [update_active t htc htdec hp]
      have hstep : ∀ i < t.loader.currentPhaseIndex + 1,
          ∀ k ∈ t.loader.loadPhaseDefinitions.getD i [],
          k ∈ addKinds t.loader.geometryKindsLoaded
            (t.loader.loadPhaseDefinitions.getD t.loader.currentPhaseIndex []) := by
        intro i hi k hk
        rw [mem_addKinds]
        by_cases hi2 : i < t.loader.currentPhaseIndex
        · exact Or.inl (hinv i hi2 k hk)
        · have : i = t.loader.currentPhaseIndex := by omega
          subst this
          exact Or.inr hk
      split
      · exact ⟨hstep, htc, rfl, rfl⟩
      · exact ⟨hstep, by simp [finishPhased, htc], rfl, rfl⟩
    · rw [update_past t htc htdec (by omega)]
      exact ⟨hinv, htc, rfl, rfl⟩
  cases hdec : sys.loader.decodedTile with
  | true => exact key sys hc hdec h
  | false =>
    cases htd : sys.tileDecodedTile with
    | false =>
      rw [update_idle sys hc hdec htd]
      exact ⟨h, hc, rfl, rfl⟩
    | true =>
      rw [update_reset_eq sys hdec htd]
      have h2 := key { sys with loader := setDecodedTile sys } (by simpa using hc)
        (by simp [setDecodedTile, htd]) (setDecodedTile_inv sys)
      simpa [setDecodedTile] using h2

/-- The updateToPhase loop preserves the prefix invariant and the loader
configuration on a cacheable tile. -/
theorem updateToPhaseAux_inv (fuel toPhase : Nat) (sys : LoaderSys) (du : Bool)
    (hc : sys.cacheable = true) (h : phasePrefixLoaded sys.loader) :
    phasePrefixLoaded (updateToPhaseAux fuel toPhase sys du).2.loader ∧
    (updateToPhaseAux fuel toPhase sys du).2.cacheable = true ∧
    (updateToPhaseAux fuel toPhase sys du).2.loader.loadPhaseDefinitions =
      sys.loader.loadPhaseDefinitions ∧
    (updateToPhaseAux fuel toPhase sys du).2.loader.basicGeometryKinds =
      sys.loader.basicGeometryKinds := by
  induction fuel generalizing sys du with
  | zero => exact ⟨h, hc, rfl, rfl⟩
  | succ n ih =>
    rw [updateToPhaseAux]
    by_cases hlt : sys.loader.currentPhaseIndex < toPhase
    · rw [if_pos hlt]
      obtain ⟨hinv1, hc1, hph1, hb1⟩ := update_inv sys hc h
      rcases hup : update sys with ⟨d, sys1⟩
      rw [hup] at hinv1 hc1 hph1 hb1
      have hinv2 : phasePrefixLoaded sys1.loader := hinv1
      have hc2 : sys1.cacheable = true := hc1
      have hph2 : sys1.loader.loadPhaseDefinitions = sys.loader.loadPhaseDefinitions := hph1
      have hb2 : sys1.loader.basicGeometryKinds = sys.loader.basicGeometryKinds := hb1
      simp only
      cases d with
      | true =>
        simp only [reduceIte]
        obtain ⟨a1, a2, a3, a4⟩ := ih sys1 true hc2 hinv2
        exact ⟨a1, a2, a3.trans hph2, a4.trans hb2⟩
      | false =>
        simp only [Bool.false_eq_true, if_false]
        exact ⟨hinv2, hc2, hph2, hb2⟩
    · rw [if_neg hlt]
      exact ⟨h, hc, rfl, rfl⟩

/-- Every loader operation preserves the prefix invariant and the loader
configuration on a cacheable tile. -/
theorem applyLoaderOp_inv (sys : LoaderSys) (op : LoaderOp)
    (hc : sys.cacheable = true) (h : phasePrefixLoaded sys.loader) :
    phasePrefixLoaded (applyLoaderOp sys op).loader ∧
    (applyLoaderOp sys op).cacheable = true ∧
    (applyLoaderOp sys op).loader.loadPhaseDefinitions =
      sys.loader.loadPhaseDefinitions ∧
    (applyLoaderOp sys op).loader.basicGeometryKinds =
      sys.loader.basicGeometryKinds := by
  cases op with
  | opSetDecodedTile =>
    exact ⟨setDecodedTile_inv sys, hc, rfl, rfl⟩
  | opUpdate => exact update_inv sys hc h
  | opUpdateToPhase n => exact updateToPhaseAux_inv (n + 1) n sys false hc h
  | opDispose =>
    refine ⟨?_, hc, rfl, rfl⟩
    intro i hi k hk
    exact h i hi k hk
  | opDataArrives => exact ⟨h, hc, rfl, rfl⟩
  | opDataRemoved => exact ⟨h, hc, rfl, rfl⟩

/-- A run of loader operations preserves the prefix invariant and the
loader configuration on a cacheable tile. -/
theorem runLoaderOps_inv (ops : List LoaderOp) (sys : LoaderSys)
    (hc : sys.cacheable = true) (h : phasePrefixLoaded sys.loader) :
    phasePrefixLoaded (runLoaderOps sys ops).loader ∧
    (runLoaderOps sys ops).cacheable = true ∧
    (runLoaderOps sys ops).loader.loadPhaseDefinitions =
      sys.loader.loadPhaseDefinitions ∧
    (runLoaderOps sys ops).loader.basicGeometryKinds =
      sys.loader.basicGeometryKinds := by
  induction ops generalizing sys with
  | nil => exact ⟨h, hc, rfl, rfl⟩
  | cons op rest ih =>
    have hcons : runLoaderOps sys (op :: rest) = runLoaderOps (applyLoaderOp sys op) rest := rfl
    rw [hcons]
    obtain ⟨a1, a2, a3, a4⟩ := applyLoaderOp_inv sys op hc h
    obtain ⟨b1, b2, b3, b4⟩ := ih (applyLoaderOp sys op) a2 a1
    exact ⟨b1, b2, b3.trans a3, b4.trans a4⟩

/-- C6 counterexample: on a non-cacheable tile a single update drives
allGeometryLoaded to true while basicGeometryLoaded stays false (with the
default phase list and basic kinds), refuting the claim over all loaders
and operation sequences. -/
theorem c6_counterexample :
    allGeometryLoaded (runLoaderOps (initTile false true) [LoaderOp.opUpdate]).loader
      = true ∧
    basicGeometryLoaded (runLoaderOps (initTile false true) [LoaderOp.opUpdate]).loader
      = false := by decide

/-- C6 (amended): for a loader on a cacheable tile whose basic kinds are
all covered by its phase definitions, after any sequence of operations
allGeometryLoaded = true implies basicGeometryLoaded = true. -/
theorem c6_basic_before_all (td : Bool) (ps : List (List TileGeometryKind))
    (bs : List TileGeometryKind) (ops : List LoaderOp)
    (hb : ∀ k ∈ bs, k ∈ ps.flatten) :
    allGeometryLoaded (runLoaderOps (initTileSys true td ps bs) ops).loader = true →
    basicGeometryLoaded (runLoaderOps (initTileSys true td ps bs) ops).loader = true := by
  intro hall
  obtain ⟨hinv, _, hph0, hbk0⟩ := runLoaderOps_inv ops (initTileSys true td ps bs) rfl
    (by intro i hi; simp [initTileSys, mkLoader] at hi)
  have hph : (runLoaderOps (initTileSys true td ps bs) ops).loader.loadPhaseDefinitions
      = ps := hph0
  have hbk : (runLoaderOps (initTileSys true td ps bs) ops).loader.basicGeometryKinds
      = bs := hbk0
  simp only [allGeometryLoaded, ge_iff_le, decide_eq_true_eq] at hall
  rw [hph] at hall
  simp only [basicGeometryLoaded, hbk, List.all_eq_true, decide_eq_true_eq]
  intro k hk
  obtain ⟨l, hl, hkl⟩ := List.mem_flatten.mp (hb k hk)
  obtain ⟨i, hi, hget⟩ := List.mem_iff_getElem.mp hl
  have hgd : (runLoaderOps (initTileSys true td ps bs) ops).loader.loadPhaseDefinitions.getD i [] = l := by
    rw [hph, List.getD_eq_getElem?_getD, List.getElem?_eq_getElem hi, hget]
    rfl
  exact hinv i (by omega) k (by rw [hgd]; exact hkl)

/-- Witness for the amended C6 on the default configuration after a full
five-update run. -/
theorem c6_basic_before_all_witness :
    (∀ k ∈ DefaultBasicGeometryKinds, k ∈ DefaultPhases.flatten) ∧
    basicGeometryLoaded (runLoaderOps
      (initTileSys true true DefaultPhases DefaultBasicGeometryKinds)
      (List.replicate 5 LoaderOp.opUpdate)).loader = true :=
  ⟨by decide,
   c6_basic_before_all true DefaultPhases DefaultBasicGeometryKinds
     (List.replicate 5 LoaderOp.opUpdate) (by decide) (by decide)⟩

mutual
/-- Check that every node carrying the given bias group also carries a bias
range. -/
def groupRanged (g : String) : Style → Bool
  | Style.group d styles => groupRangedData g d && groupRangedList g styles
  | Style.leaf d => groupRangedData g d

/-- List version of groupRanged. -/
def groupRangedList (g : String) : List Style → Bool
  | [] => true
  | s :: rest => groupRanged g s && groupRangedList g rest
end

theorem lowestPhase_foldl_some (tiles : List LoaderSys) (a : Nat) :
    ∃ L, (tiles.foldl (fun acc ts =>
      match acc with
      | none => some ts.loader.currentPhaseIndex
      | some l => if ts.loader.currentPhaseIndex < l then
          some ts.loader.currentPhaseIndex else some l) (some a)) = some L ∧
      L ≤ a ∧ (L = a ∨ ∃ ts ∈ tiles, ts.loader.currentPhaseIndex = L) ∧
      ∀ ts ∈ tiles, L ≤ ts.loader.currentPhaseIndex := by
  induction tiles generalizing a with
  | nil => exact ⟨a, rfl, le_refl a, Or.inl rfl, by simp⟩
  | cons t rest ih =>
    rw [List.foldl_cons]
    simp only
    by_cases h : t.loader.currentPhaseIndex < a
    · rw [if_pos h]
      obtain ⟨L, h1, h2, h3, h4⟩ := ih t.loader.currentPhaseIndex
      refine ⟨L, h1, by omega, ?_, ?_⟩
      · rcases h3 with h3 | ⟨ts, hts, h5⟩
        · exact Or.inr ⟨t, List.mem_cons_self t rest, h3.symm ▸ rfl⟩
        · exact Or.inr ⟨ts, List.mem_cons_of_mem t hts, h5⟩
      · intro ts hts
        rcases List.mem_cons.mp hts with hts | hts
        · subst hts; omega
        · exact h4 ts hts
    · rw [if_neg h]
      obtain ⟨L, h1, h2, h3, h4⟩ := ih a
      refine ⟨L, h1, h2, ?_, ?_⟩
      · rcases h3 with h3 | ⟨ts, hts, h5⟩
        · exact Or.inl h3
        · exact Or.inr ⟨ts, List.mem_cons_of_mem t hts, h5⟩
      · intro ts hts
        rcases List.mem_cons.mp hts with hts | hts
        · subst hts; omega
        · exact h4 ts hts

theorem lowestPhase_spec (t : LoaderSys) (rest : List LoaderSys) :
    ∃ L, lowestPhase (t :: rest) = some L ∧
      (∃ ts ∈ t :: rest, ts.loader.currentPhaseIndex = L) ∧
      ∀ ts ∈ t :: rest, L ≤ ts.loader.currentPhaseIndex := by
  rw [lowestPhase, List.foldl_cons]
  obtain ⟨L, h1, h2, h3, h4⟩ := lowestPhase_foldl_some rest t.loader.currentPhaseIndex
  refine ⟨L, h1, ?_, ?_⟩
  · rcases h3 with h3 | ⟨ts, hts, h5⟩
    · exact ⟨t, List.mem_cons_self t rest, h3.symm⟩
    · exact ⟨ts, List.mem_cons_of_mem t hts, h5⟩
  · intro ts hts
    rcases List.mem_cons.mp hts with hts | hts
    · subst hts; omega
    · exact h4 ts hts

theorem highestPhase_foldl_some (tiles : List LoaderSys) (a : Nat) :
    ∃ M, (tiles.foldl (fun acc ts =>
      match acc with
      | none => some ts.loader.currentPhaseIndex
      | some l => if ts.loader.currentPhaseIndex > l then
          some ts.loader.currentPhaseIndex else some l) (some a)) = some M ∧
      a ≤ M ∧ (M = a ∨ ∃ ts ∈ tiles, ts.loader.currentPhaseIndex = M) := by
  induction tiles generalizing a with
  | nil => exact ⟨a, rfl, le_refl a, Or.inl rfl⟩
  | cons t rest ih =>
    rw [List.foldl_cons]
    simp only
    by_cases h : t.loader.currentPhaseIndex > a
    · rw [if_pos h]
      obtain ⟨M, h1, h2, h3⟩ := ih t.loader.currentPhaseIndex
      refine ⟨M, h1, by omega, ?_⟩
      rcases h3 with h3 | ⟨ts, hts, h5⟩
      · exact Or.inr ⟨t, List.mem_cons_self t rest, h3.symm ▸ rfl⟩
      · exact Or.inr ⟨ts, List.mem_cons_of_mem t hts, h5⟩
    · rw [if_neg h]
      obtain ⟨M, h1, h2, h3⟩ := ih a
      refine ⟨M, h1, h2, ?_⟩
      rcases h3 with h3 | ⟨ts, hts, h5⟩
      · exact Or.inl h3
      · exact Or.inr ⟨ts, List.mem_cons_of_mem t hts, h5⟩

theorem highestPhase_spec (t : LoaderSys) (rest : List LoaderSys) :
    ∃ M, highestPhase (t :: rest) = some M ∧
      ∃ ts ∈ t :: rest, ts.loader.currentPhaseIndex = M := by
  rw [highestPhase, List.foldl_cons]
  obtain ⟨M, h1, h2, h3⟩ := highestPhase_foldl_some rest t.loader.currentPhaseIndex
  refine ⟨M, h1, ?_⟩
  rcases h3 with h3 | ⟨ts, hts, h5⟩
  · exact ⟨t, List.mem_cons_self t rest, h3.symm⟩
  · exact ⟨ts, List.mem_cons_of_mem t hts, h5⟩



theorem updateToPhase_c1_step (ts : LoaderSys) (L : Nat)
    (hc : ts.cacheable = true)
    (hph : ts.loader.loadPhaseDefinitions = DefaultPhases)
    (hdec : ts.loader.decodedTile = false →
      ts.loader.currentPhaseIndex = 0 ∨
      ts.loader.currentPhaseIndex = DefaultPhases.length)
    (hlo : L ≤ ts.loader.currentPhaseIndex)
    (hhi : ts.loader.currentPhaseIndex ≤ L + 1)
    (hL : L < DefaultPhases.length) :
    (updateToPhase (L + 1) ts).2.cacheable = true ∧
    (updateToPhase (L + 1) ts).2.loader.loadPhaseDefinitions = DefaultPhases ∧
    ((updateToPhase (L + 1) ts).2.loader.decodedTile = false →
      (updateToPhase (L + 1) ts).2.loader.currentPhaseIndex = 0 ∨
      (updateToPhase (L + 1) ts).2.loader.currentPhaseIndex = DefaultPhases.length) ∧
    L ≤ (updateToPhase (L + 1) ts).2.loader.currentPhaseIndex ∧
    (updateToPhase (L + 1) ts).2.loader.currentPhaseIndex ≤ L + 1 := by
  rw [updateToPhase]
  by_cases hp : ts.loader.currentPhaseIndex = L + 1
  · rw [updateToPhaseAux, if_neg (by omega)]
    exact ⟨hc, hph, hdec, (by omega : L ≤ ts.loader.currentPhaseIndex),
      (by omega : ts.loader.currentPhaseIndex ≤ L + 1)⟩
  · have hpL : ts.loader.currentPhaseIndex = L := by omega
    rw [updateToPhaseAux, if_pos (by omega)]
    cases hd : ts.loader.decodedTile with
    | true =>
      rw [update_active ts hc hd (by rw [hph]; omega)]
      simp only [reduceIte]
      rw [hph, hpL]
      by_cases h2 : L + 1 < DefaultPhases.length
      · rw [if_pos h2]
        rw [updateToPhaseAux, if_neg (by simp)]
        refine ⟨hc, rfl, ?_, by simp, by simp⟩
        intro hfalse
        simp [hd] at hfalse
      · rw [if_neg h2]
        rw [updateToPhaseAux, if_neg (by simp [finishPhased])]
        refine ⟨by simp [finishPhased, hc], by simp [finishPhased], ?_,
          by simp [finishPhased], by simp [finishPhased]⟩
        intro _
        right
        simp only [finishPhased]
        omega
    | false =>
      cases htd : ts.tileDecodedTile with
      | false =>
        rw [update_idle ts hc hd htd]
        simp only [Bool.false_eq_true, if_false]
        exact ⟨hc, hph, hdec, hlo, hhi⟩
      | true =>
        rw [update_reset_eq ts hd htd]
        have hd2 : ({ ts with loader := setDecodedTile ts } : LoaderSys).loader.decodedTile = true := by
          simp [setDecodedTile, htd]
        rw [update_active _ (by simpa using hc) hd2 (by simp [setDecodedTile, hph]; omega)]
        simp only [setDecodedTile, hph]
        have hzero : L = 0 := by
          rcases hdec hd with h0 | h0
          · omega
          · omega
        subst hzero
        simp only [reduceIte]
        by_cases h2 : 0 + 1 < DefaultPhases.length
        · rw [if_pos (by simpa using h2)]
          rw [updateToPhaseAux, if_neg (by simp)]
          refine ⟨hc, rfl, ?_, by simp, by simp⟩
          intro hfalse
          simp [htd] at hfalse
        · rw [if_neg (by simpa using h2)]
          rw [updateToPhaseAux, if_neg (by simp [finishPhased])]
          refine ⟨by simp [finishPhased, hc], by simp [finishPhased], ?_,
            by simp [finishPhased], by simp [finishPhased]⟩
          intro _
          right
          simp only [finishPhased]
          omega



theorem updateTilesIfNeededAux_static (toPhase : Nat) (tiles : List LoaderSys) (n : Nat) :
    updateTilesIfNeededAux false toPhase tiles n =
      tiles.map (fun ts => (updateToPhase toPhase ts).2) := by
  induction tiles generalizing n with
  | nil => rfl
  | cons t rest ih =>
    rw [updateTilesIfNeededAux]
    rcases hu : updateToPhase toPhase t with ⟨d, t1⟩
    cases d with
    | true =>
      simp only [Bool.false_and, Bool.false_eq_true, if_false, reduceIte, List.map_cons, hu]
      rw [ih (n + 1)]
    | false =>
      simp only [Bool.false_eq_true, if_false, List.map_cons, hu]
      rw [ih n]

theorem c1_frame_preserves (tiles : List LoaderSys) (hinv : C1Inv tiles) :
    C1Inv (updateTilesTogether false tiles) := by
  cases tiles with
  | nil =>
    have hred : updateTilesTogether false [] = [] := rfl
    rw [hred]
    intro ts hts
    simp at hts
  | cons t rest =>
    obtain ⟨L, hL, ⟨tsL, htsL, htsLphase⟩, hmin⟩ := lowestPhase_spec t rest
    have hred : updateTilesTogether false (t :: rest) =
        if L < DefaultPhases.length then updateTilesIfNeeded false (L + 1) (t :: rest)
        else t :: rest := by
      rw [updateTilesTogether, hL]
    rw [hred]
    by_cases hlt : L < DefaultPhases.length
    · rw [if_pos hlt]
      rw [updateTilesIfNeeded, updateTilesIfNeededAux_static]
      intro ts1 hts1
      obtain ⟨ts, hts, hmap⟩ := List.mem_map.mp hts1
      obtain ⟨hc, hph, hrange, hdec, hbound⟩ := hinv ts hts
      obtain ⟨a1, a2, a3, a4, a5⟩ := updateToPhase_c1_step ts L hc hph hdec
        (hmin ts hts) (hbound L hL) hlt
      subst hmap
      refine ⟨a1, a2, by omega, a3, ?_⟩
      intro L2 hL2
      obtain ⟨L3, hL3, ⟨ts2, hts2, hts2phase⟩, hmin3⟩ :=
        lowestPhase_spec ((fun ts => (updateToPhase (L + 1) ts).2) t)
          (rest.map (fun ts => (updateToPhase (L + 1) ts).2))
      rw [List.map_cons] at hL2
      rw [hL3] at hL2
      have hL23 : L3 = L2 := Option.some.inj hL2
      have hts2m : ts2 ∈ (t :: rest).map (fun ts => (updateToPhase (L + 1) ts).2) := by
        rw [List.map_cons]; exact hts2
      obtain ⟨ts0, hts0, hts0map⟩ := List.mem_map.mp hts2m
      obtain ⟨hc0, hph0, hrange0, hdec0, hbound0⟩ := hinv ts0 hts0
      obtain ⟨b1, b2, b3, b4, b5⟩ := updateToPhase_c1_step ts0 L hc0 hph0 hdec0
        (hmin ts0 hts0) (hbound0 L hL) hlt
      have hb4 : L ≤ ts2.loader.currentPhaseIndex := by
        rw [← hts0map]; exact b4
      omega
    · rw [if_neg hlt]
      exact hinv



theorem c1_frames_preserve (n : Nat) (tiles : List LoaderSys) (hinv : C1Inv tiles) :
    C1Inv (framesStatic n tiles) := by
  induction n generalizing tiles with
  | zero => exact hinv
  | succ m ih => exact ih (updateTilesTogether false tiles) (c1_frame_preserves tiles hinv)

theorem c1_init_inv (tds : List Bool) :
    C1Inv (tds.map (fun td => initTile true td)) := by
  intro ts hts
  obtain ⟨td, htd, hmap⟩ := List.mem_map.mp hts
  subst hmap
  refine ⟨rfl, rfl, by simp [initTile, initTileSys, mkLoader], ?_, ?_⟩
  · intro _
    left
    rfl
  · intro L hL
    simp [initTile, initTileSys, mkLoader]

/-- C1 (amended): in static mode, for every set of visible tiles whose data
sources are all cacheable (tiles fresh from initTile, with or without a
DecodedTile), after any number of updateTiles frames the maximum
currentPhase minus the minimum currentPhase over the visible tiles is at
most one. -/
theorem c1_static_phase_sync (tds : List Bool) (n : Nat) :
    (highestPhase (framesStatic n (tds.map (fun td => initTile true td)))).getD 0 -
      (lowestPhase (framesStatic n (tds.map (fun td => initTile true td)))).getD 0 ≤ 1 := by
  have hinv := c1_frames_preserve n (tds.map (fun td => initTile true td))
    (c1_init_inv tds)
  cases hts : framesStatic n (tds.map (fun td => initTile true td)) with
  | nil => simp [lowestPhase, highestPhase]
  | cons t rest =>
    rw [hts] at hinv
    obtain ⟨L, hL, _, hmin⟩ := lowestPhase_spec t rest
    obtain ⟨M, hM, ⟨ts2, hts2, hts2phase⟩⟩ := highestPhase_spec t rest
    rw [hL, hM]
    obtain ⟨_, _, _, _, hbound⟩ := hinv ts2 hts2
    have := hbound L hL
    simp only [Option.getD_some]
    omega


/-- C1 counterexample: with a non-cacheable tile among the visible tiles,
one static frame already drives the spread of phase cursors to four: the
non-cacheable loader short-circuits its cursor to the end of the phase list
while the cacheable tile advances only to the lowest phase plus one. -/
theorem c1_counterexample :
    ¬ ((highestPhase (framesStatic 1 [initTile false false, initTile true true])).getD 0 -
        (lowestPhase (framesStatic 1 [initTile false false, initTile true true])).getD 0 ≤ 1) := by
  decide

/-- C10: the getters isFinished, basicGeometryLoaded and allGeometryLoaded
of SimpleTileGeometryLoader all report the single internal finished flag,
and an update call that first observes the tile's DecodedTile sets that
flag synchronously, before the deferred build step has run (the built flag
is untouched by the update call itself). -/
theorem c10_simple_getters_sync_finish :
    (∀ w : SimpleWorld,
      simpleBasicGeometryLoaded w = simpleIsFinished w ∧
      simpleAllGeometryLoaded w = simpleIsFinished w) ∧
    (∀ dis vis inv fin bu : Bool, ∀ pe : Nat,
      (simpleUpdate (SimpleWorld.mk true dis vis inv false fin bu pe)).mIsFinished = true ∧
      (simpleUpdate (SimpleWorld.mk true dis vis inv false fin bu pe)).built = bu) := by
  constructor
  · intro w
    exact ⟨rfl, rfl⟩
  · intro dis vis inv fin bu pe
    cases dis <;> cases vis <;>
      simp [simpleUpdate, prepareForRender, simpleFinish]

/-- C9 counterexample: the tile is disposed after update scheduled the
deferred build but remains visible; the deferred step then runs and builds
the geometry anyway, refuting the claim that a tile disposed after
scheduling exits without building. -/
theorem c9_counterexample :
    (runSimpleOps (SimpleWorld.mk true false true true false false false 0)
        [SimpleOp.opUpdate, SimpleOp.opDisposeTile, SimpleOp.opRunDeferred]).disposed
      = true ∧
    (runSimpleOps (SimpleWorld.mk true false true true false false false 0)
        [SimpleOp.opUpdate, SimpleOp.opDisposeTile, SimpleOp.opRunDeferred]).built
      = true := by
  decide

/-- C9 (amended): the build is deferred by one scheduling tick; disposal
and visibility are checked before scheduling (update schedules exactly when
the payload was captured on a non-disposed, visible tile); at build time the
deferred step re-checks only visibility: when invisible it exits without
building and evicts the tile from the visible tile set, when visible it
builds even if the tile was disposed after scheduling; and already
performed state (built, finished) is never rolled back by any operation. -/
theorem c9_deferred_build_visibility :
    (∀ td dis inv m fin bu : Bool, ∀ p : Nat,
      (runDeferredStep (SimpleWorld.mk td dis false inv m fin bu (p + 1))).built = bu ∧
      (runDeferredStep (SimpleWorld.mk td dis false inv m fin bu (p + 1))).inVisibleSet
        = false) ∧
    (∀ td dis inv m fin bu : Bool, ∀ p : Nat,
      (runDeferredStep (SimpleWorld.mk td dis true inv m fin bu (p + 1))).built = true) ∧
    (∀ dis vis inv fin bu : Bool, ∀ pe : Nat,
      (simpleUpdate (SimpleWorld.mk true dis vis inv false fin bu pe)).pending =
        pe + (if !dis && vis then 1 else 0)) ∧
    (∀ op : SimpleOp, ∀ td dis vis inv m fin : Bool, ∀ pe : Nat,
      (applySimpleOp (SimpleWorld.mk td dis vis inv m fin true pe) op).built = true) ∧
    (∀ op : SimpleOp, ∀ td dis vis inv m bu : Bool, ∀ pe : Nat,
      (applySimpleOp (SimpleWorld.mk td dis vis inv m true bu pe) op).mIsFinished
        = true) := by
  refine ⟨?_, ?_, ?_, ?_, ?_⟩
  · intro td dis inv m fin bu p
    exact ⟨rfl, rfl⟩
  · intro td dis inv m fin bu p
    rfl
  · intro dis vis inv fin bu pe
    cases dis <;> cases vis <;>
      simp [simpleUpdate, prepareForRender, simpleFinish]
  · intro op td dis vis inv m fin pe
    cases op <;>
      first
      | rfl
      | (cases td <;> cases dis <;> cases vis <;> cases m <;> cases pe <;>
          simp [applySimpleOp, simpleUpdate, prepareForRender, simpleFinish,
            runDeferredStep, simpleDispose])
  · intro op td dis vis inv m bu pe
    cases op <;>
      first
      | rfl
      | (cases td <;> cases dis <;> cases vis <;> cases m <;> cases pe <;>
          simp [applySimpleOp, simpleUpdate, prepareForRender, simpleFinish,
            runDeferredStep, simpleDispose])

theorem findIdx_self_of_nodup (zs : List ℚ) (hnd : zs.Nodup) (i : Nat)
    (hi : i < zs.length) :
    zs.findIdx? (fun a => decide (some a = zs.get? i)) = some i := by
  induction zs generalizing i with
  | nil => simp at hi
  | cons z rest ih =>
    rw [List.nodup_cons] at hnd
    cases i with
    | zero =>
      rw [List.findIdx?_cons]
      rw [if_pos (by simp)]
    | succ j =>
      have hj : j < rest.length := by simpa using hi
      rw [List.findIdx?_cons]
      have hget : (z :: rest).get? (j + 1) = rest.get? j := rfl
      rw [hget]
      rw [if_neg ?_]
      · rw [List.findIdx?_succ]
        have := ih hnd.2 j hj
        rw [this]
        rfl
      · simp only [decide_eq_true_eq]
        intro hcontra
        rw [List.get?_eq_getElem?, List.getElem?_eq_getElem hj] at hcontra
        have : z = rest[j] := Option.some.inj hcontra
        exact hnd.1 (this ▸ List.getElem_mem hj)

theorem removeDupAux_nodup (fuel : Nat) (zs : List ℚ) (vs : List JValue)
    (hnd : zs.Nodup) (hlen : zs.length = vs.length) :
    ∀ i : Nat, removeDupAux fuel (i : Int) zs vs = (zs, vs) := by
  induction fuel with
  | zero => intro i; rfl
  | succ f ih =>
    intro i
    rw [removeDupAux]
    by_cases hi : (i : Int) < (vs.length : Int)
    · rw [if_pos hi]
      have hi2 : i < zs.length := by rw [hlen]; exact_mod_cast hi
      have htgt : (if (0 : Int) ≤ (i : Int) then zs.get? (i : Int).toNat else none) =
          zs.get? i := by
        rw [if_pos (by positivity)]
        norm_num
      simp only [htgt, findIdx_self_of_nodup zs hnd i hi2]
      rw [if_neg (by simp)]
      have hcast : ((i : Int) + 1) = ((i + 1 : Nat) : Int) := by push_cast; ring
      rw [hcast]
      exact ih (i + 1)
    · rw [if_neg hi]

theorem removeDuplicatePropertyValues_nodup (zs : List ℚ) (vs : List JValue)
    (hnd : zs.Nodup) (hlen : zs.length = vs.length) :
    removeDuplicatePropertyValues zs vs = (zs, vs) := by
  rw [removeDuplicatePropertyValues]
  exact_mod_cast removeDupAux_nodup (2 * vs.length + 2) zs vs hnd hlen 0



theorem setIdx_length (l : List α) (i : Nat) (v : α) :
    (setIdx l i v).length = l.length := by
  unfold setIdx
  split <;> simp

theorem setIdx_get (l : List α) (i : Nat) (v : α) (p : Nat) :
    (setIdx l i v).get? p =
      if p = i ∧ i < l.length then some v else l.get? p := by
  unfold setIdx
  by_cases h : i < l.length
  · rw [if_pos h]
    by_cases hp : p = i
    · subst hp
      rw [if_pos ⟨rfl, h⟩]
      exact List.get?_set_eq_of_lt v h
    · rw [if_neg (by tauto)]
      exact List.get?_set_ne v l (by omega)
  · rw [if_neg h, if_neg (by tauto)]

theorem writeLoop_length (base m : Nat) (g : Nat → Option ℚ) (acc : List (Option ℚ)) :
    ((List.range m).foldl (fun a j => setIdx a (base + j) (g j)) acc).length
      = acc.length := by
  induction m generalizing acc with
  | zero => rfl
  | succ k ih =>
    rw [List.range_succ, List.foldl_append, List.foldl_cons, List.foldl_nil]
    rw [setIdx_length, ih]

theorem writeLoop_get (base m : Nat) (g : Nat → Option ℚ) (acc : List (Option ℚ))
    (p : Nat) :
    ((List.range m).foldl (fun a j => setIdx a (base + j) (g j)) acc).get? p =
      if base ≤ p ∧ p < base + m ∧ p < acc.length then some (g (p - base))
      else acc.get? p := by
  induction m generalizing p with
  | zero =>
    rw [List.range_zero, List.foldl_nil, if_neg (by omega)]
  | succ k ih =>
    rw [List.range_succ, List.foldl_append, List.foldl_cons, List.foldl_nil]
    rw [setIdx_get, writeLoop_length]
    by_cases h1 : p = base + k ∧ base + k < acc.length
    · rw [if_pos h1]
      rw [if_pos (by omega)]
      obtain ⟨h1a, _⟩ := h1
      subst h1a
      congr 1
      congr 1
      omega
    · rw [if_neg h1, ih p]
      by_cases h2 : base ≤ p ∧ p < base + k ∧ p < acc.length
      · rw [if_pos h2, if_pos (by omega)]
      · rw [if_neg h2, if_neg (by omega)]

theorem colorChannels_length (v : JValue) : (colorChannels v).length = 3 := by
  cases v <;> rfl

theorem colorWriteLoop_get (n i : Nat) (channels : List ℚ) (acc : List (Option ℚ))
    (p : Nat) :
    (colorWriteLoop n i channels acc).get? p =
      if 3 * i ≤ p ∧ p < 3 * i + 3 * n ∧ p < acc.length
      then some (channels.get? (p - 3 * i))
      else acc.get? p := by
  rw [colorWriteLoop]
  exact writeLoop_get (3 * i) (3 * n) (fun j => channels.get? j) acc p

theorem colorWriteLoop_length (n i : Nat) (channels : List ℚ) (acc : List (Option ℚ)) :
    (colorWriteLoop n i channels acc).length = acc.length := by
  rw [colorWriteLoop]
  exact writeLoop_length (3 * i) (3 * n) (fun j => channels.get? j) acc



theorem colorOuter_spec (vs : List JValue) (n : Nat) (hn : 0 < n) (m : Nat) (hm : m ≤ n) :
    (((List.range m).foldl
        (fun acc i => colorWriteLoop n i (colorChannels (vs.getD i (JValue.num 0))) acc)
        (List.replicate (3 * n) (some (0 : ℚ))))).length = 3 * n ∧
    (∀ q k : Nat, q < m → k < 3 →
      ((List.range m).foldl
        (fun acc i => colorWriteLoop n i (colorChannels (vs.getD i (JValue.num 0))) acc)
        (List.replicate (3 * n) (some (0 : ℚ)))).get? (3 * q + k) =
        some ((colorChannels (vs.getD q (JValue.num 0))).get? k)) ∧
    (∀ p : Nat, 3 * m ≤ p → p < 3 * n →
      ((List.range m).foldl
        (fun acc i => colorWriteLoop n i (colorChannels (vs.getD i (JValue.num 0))) acc)
        (List.replicate (3 * n) (some (0 : ℚ)))).get? p =
        (if m = 0 then some (some 0) else some none)) := by
  induction m with
  | zero =>
    refine ⟨by simp, by omega, ?_⟩
    intro p hp1 hp2
    rw [if_pos rfl, List.range_zero, List.foldl_nil]
    rw [List.get?_eq_getElem?, List.getElem?_replicate, if_pos hp2]
  | succ m ih =>
    obtain ⟨ihlen, ihq, ihrest⟩ := ih (by omega)
    rw [List.range_succ, List.foldl_append, List.foldl_cons, List.foldl_nil]
    refine ⟨by rw [colorWriteLoop_length, ihlen], ?_, ?_⟩
    · intro q k hq hk
      rw [colorWriteLoop_get, ihlen]
      by_cases hqm : q < m
      · rw [if_neg (by omega)]
        exact ihq q k hqm hk
      · have hq2 : q = m := by omega
        subst hq2
        rw [if_pos (by omega)]
        congr 1
        congr 1
        omega
    · intro p hp1 hp2
      rw [colorWriteLoop_get, ihlen]
      rw [if_pos (by omega)]
      rw [if_neg (by omega)]
      congr 1
      rw [List.get?_eq_getElem?, List.getElem?_eq_none_iff.mpr]
      rw [colorChannels_length]
      omega



theorem channel_bounds (s : String) :
    0 ≤ redChannel s ∧ redChannel s ≤ 1 ∧ 0 ≤ greenChannel s ∧
    greenChannel s ≤ 1 ∧ 0 ≤ blueChannel s ∧ blueChannel s ≤ 1 := by
  have hb : ∀ x : Nat, x < 256 → 0 ≤ ((x : ℚ) / 255) ∧ ((x : ℚ) / 255) ≤ 1 := by
    intro x hx
    constructor
    · positivity
    · rw [div_le_one (by norm_num)]
      exact_mod_cast Nat.le_of_lt_succ (by omega)
  have h1 := hb (((jsParseColor s).getD 0 % 2 ^ 32) / 2 ^ 16 % 2 ^ 8)
    (Nat.mod_lt _ (by norm_num))
  have h2 := hb (((jsParseColor s).getD 0 % 2 ^ 32) / 2 ^ 8 % 2 ^ 8)
    (Nat.mod_lt _ (by norm_num))
  have h3 := hb (((jsParseColor s).getD 0 % 2 ^ 32) % 2 ^ 8)
    (Nat.mod_lt _ (by norm_num))
  exact ⟨h1.1, h1.2, h2.1, h2.2, h3.1, h3.2⟩

theorem createInterpolatedProperty_str_values (interp : Option InterpolationMode)
    (zs : List ℚ) (cs : List String) (hne : cs ≠ []) (hnd : zs.Nodup)
    (hlen : zs.length = cs.length) :
    (createInterpolatedProperty ⟨interp, zs, cs.map JValue.str⟩).values =
      (List.range (cs.map JValue.str).length).foldl
        (fun acc i => colorWriteLoop (cs.map JValue.str).length i
          (colorChannels ((cs.map JValue.str).getD i (JValue.num 0))) acc)
        (List.replicate (3 * (cs.map JValue.str).length) (some (0 : ℚ))) := by
  obtain ⟨c0, cs0, rfl⟩ := List.exists_cons_of_ne_nil hne
  rw [createInterpolatedProperty]
  simp only [removeDuplicatePropertyValues_nodup zs ((c0 :: cs0).map JValue.str) hnd
    (by simpa using hlen)]
  simp only [List.map_cons, List.head?_cons]

theorem createInterpolatedProperty_bool_values (interp : Option InterpolationMode)
    (zs : List ℚ) (bs : List Bool) (hne : bs ≠ []) (hnd : zs.Nodup)
    (hlen : zs.length = bs.length) :
    (createInterpolatedProperty ⟨interp, zs, bs.map JValue.boolV⟩).values =
      bs.map (fun b => some (if b then (1 : ℚ) else 0)) := by
  obtain ⟨b0, bs0, rfl⟩ := List.exists_cons_of_ne_nil hne
  rw [createInterpolatedProperty]
  simp only [removeDuplicatePropertyValues_nodup zs ((b0 :: bs0).map JValue.boolV) hnd
    (by simpa using hlen)]
  simp only [List.map_cons, List.head?_cons]
  simp [jsTruthy]





/-- C8: converting an interpolated property definition (with distinct zoom
levels matching the value count): a color (string) definition with n
entries yields exactly 3n channels where entries 3i, 3i+1, 3i+2 are the
red, green and blue components of the i-th color divided by 255, each
channel lying in [0,1]; a boolean definition yields one channel per entry,
1 for true and 0 for false. -/
theorem c8_interpolated_property_channels (interp : Option InterpolationMode) (zs : List ℚ) :
    (∀ s : String,
      0 ≤ redChannel s ∧ redChannel s ≤ 1 ∧ 0 ≤ greenChannel s ∧
      greenChannel s ≤ 1 ∧ 0 ≤ blueChannel s ∧ blueChannel s ≤ 1) ∧
    (∀ cs : List String, cs ≠ [] → zs.Nodup → zs.length = cs.length →
      (createInterpolatedProperty ⟨interp, zs, cs.map JValue.str⟩).values.length
          = 3 * cs.length ∧
      (∀ i c, cs.get? i = some c →
        (createInterpolatedProperty ⟨interp, zs, cs.map JValue.str⟩).values.get? (3 * i)
            = some (some (redChannel c)) ∧
        (createInterpolatedProperty ⟨interp, zs, cs.map JValue.str⟩).values.get? (3 * i + 1)
            = some (some (greenChannel c)) ∧
        (createInterpolatedProperty ⟨interp, zs, cs.map JValue.str⟩).values.get? (3 * i + 2)
            = some (some (blueChannel c)))) ∧
    (∀ bs : List Bool, bs ≠ [] → zs.Nodup → zs.length = bs.length →
      (createInterpolatedProperty ⟨interp, zs, bs.map JValue.boolV⟩).values =
        bs.map (fun b => some (if b then (1 : ℚ) else 0))) := by
  refine ⟨channel_bounds, ?_, ?_⟩
  · intro cs hne hnd hlen
    rw [createInterpolatedProperty_str_values interp zs cs hne hnd hlen]
    have hn : 0 < (cs.map JValue.str).length := by
      simp only [List.length_map]
      cases cs with
      | nil => exact absurd rfl hne
      | cons a b => simp
    obtain ⟨hl, hq, _⟩ := colorOuter_spec (cs.map JValue.str)
      (cs.map JValue.str).length hn (cs.map JValue.str).length (le_refl _)
    constructor
    · rw [hl]
      simp
    · intro i c hc
      have hc2 : cs[i]? = some c := by rw [← List.get?_eq_getElem?]; exact hc
      obtain ⟨hi, _⟩ := List.getElem?_eq_some_iff.mp hc2
      have hgd : (cs.map JValue.str).getD i (JValue.num 0) = JValue.str c := by
        rw [List.getD_eq_getElem?_getD, List.getElem?_map, hc2]
        rfl
      have hlen2 : (cs.map JValue.str).length = cs.length := by simp
      have h0 := hq i 0 (by rw [hlen2]; exact hi) (by norm_num)
      have h1 := hq i 1 (by rw [hlen2]; exact hi) (by norm_num)
      have h2 := hq i 2 (by rw [hlen2]; exact hi) (by norm_num)
      rw [hgd] at h0 h1 h2
      refine ⟨?_, ?_, ?_⟩
      · simpa [colorChannels] using h0
      · simpa [colorChannels] using h1
      · simpa [colorChannels] using h2
  · intro bs hne hnd hlen
    exact createInterpolatedProperty_bool_values interp zs bs hne hnd hlen

/-- C7 (code bug): removeDuplicatePropertyValues splices the two arrays at
the wrong (and mutually different) indices, `splice(--i, 1)` twice.  On
zoomLevels [5, 7, 5] with values [1, 2, 3] the claim (and the function's
evident intent) demands zoomLevels [5, 7] with values [1, 2] (first
occurrence wins, distinct levels preserved); the code instead drops the
distinct level 7 entirely and attaches value 2 (the value of level 7) to
level 5, as this evaluation shows. -/
theorem c7_remove_duplicates_bug :
    removeDuplicatePropertyValues [5, 7, 5] [JValue.num 1, JValue.num 2, JValue.num 3] =
      ([5], [JValue.num 2]) ∧
    (createInterpolatedProperty
      { interpolation := none
        zoomLevels := [5, 7, 5]
        values := [JValue.num 1, JValue.num 2, JValue.num 3] }).zoomLevels = [5] ∧
    (createInterpolatedProperty
      { interpolation := none
        zoomLevels := [5, 7, 5]
        values := [JValue.num 1, JValue.num 2, JValue.num 3] }).values = [some 2] := by
  refine ⟨by decide, by decide, by decide⟩

/-- Witness for C8 at two concrete colors and a concrete boolean list. -/
theorem c8_interpolated_property_channels_witness :
    ([5, 9] : List ℚ).Nodup ∧
    (createInterpolatedProperty
      { interpolation := none
        zoomLevels := [5, 9]
        values := ["#ff0000", "#102030"].map JValue.str }).values.length
      = 3 * (["#ff0000", "#102030"] : List String).length ∧
    (createInterpolatedProperty
      { interpolation := none
        zoomLevels := [5, 9]
        values := ["#ff0000", "#102030"].map JValue.str }).values.get? (3 * 1)
      = some (some (redChannel "#102030")) ∧
    (createInterpolatedProperty
      { interpolation := none
        zoomLevels := [5, 9]
        values := [true, false].map JValue.boolV }).values =
      [true, false].map (fun b => some (if b then (1 : ℚ) else 0)) :=
  ⟨by decide,
   ((c8_interpolated_property_channels none [5, 9]).2.1 ["#ff0000", "#102030"]
     (by decide) (by decide) (by decide)).1,
   (((c8_interpolated_property_channels none [5, 9]).2.1 ["#ff0000", "#102030"]
     (by decide) (by decide) (by decide)).2 1 "#102030" (by rfl)).1,
   (c8_interpolated_property_channels none [5, 9]).2.2 [true, false]
     (by decide) (by decide) (by decide)⟩



theorem processStyle_group_eq (env : Env) (stack : List StyleData) (d : StyleData)
    (styles : List Style) (techniques : List Technique) :
    processStyle env stack (Style.group d styles) techniques =
      if whenFails d env then (false, Style.group d styles, techniques, [])
      else ((processStyleList env (stack ++ [d]) styles techniques).1,
            Style.group d (processStyleList env (stack ++ [d]) styles techniques).2.1,
            (processStyleList env (stack ++ [d]) styles techniques).2.2.1,
            (processStyleList env (stack ++ [d]) styles techniques).2.2.2) := by
  rw [processStyle]

theorem processStyle_leaf_when (env : Env) (stack : List StyleData) (d : StyleData)
    (techniques : List Technique) (hw : whenFails d env = true) :
    processStyle env stack (Style.leaf d) techniques =
      (false, Style.leaf d, techniques, []) := by
  rw [processStyle, if_pos hw]

theorem processStyle_leaf_notech (env : Env) (stack : List StyleData) (d : StyleData)
    (techniques : List Technique) (hw : whenFails d env = false)
    (ht : d.technique = none) :
    processStyle env stack (Style.leaf d) techniques =
      (false, Style.leaf d, techniques, []) := by
  rw [processStyle, if_neg (by simp [hw]), ht]

theorem processStyle_leaf_fresh (env : Env) (stack : List StyleData) (d : StyleData)
    (techniques : List Technique) (name : String) (hw : whenFails d env = false)
    (ht : d.technique = some name) (hidx : d.index = none) :
    processStyle env stack (Style.leaf d) techniques =
      (decide (d.final = some true),
       Style.leaf { d with index := some techniques.length },
       techniques ++ [setProp (assembleTechnique stack d name) "_index"
         (TechValue.plain (SValue.ofInt (techniques.length : Int)))],
       [techniques.length]) := by
  rw [processStyle, if_neg (by simp [hw]), ht, hidx]

theorem processStyle_leaf_hit (env : Env) (stack : List StyleData) (d : StyleData)
    (techniques : List Technique) (name : String) (idx : Nat)
    (hw : whenFails d env = false) (ht : d.technique = some name)
    (hidx : d.index = some idx) :
    processStyle env stack (Style.leaf d) techniques =
      (decide (d.final = some true), Style.leaf d, techniques, [idx]) := by
  rw [processStyle, if_neg (by simp [hw]), ht, hidx]

theorem processStyleList_cons_eq (env : Env) (stack : List StyleData) (s : Style)
    (rest : List Style) (techniques : List Technique) :
    processStyleList env stack (s :: rest) techniques =
      if (processStyle env stack s techniques).1 then
        (true, (processStyle env stack s techniques).2.1 :: rest,
         (processStyle env stack s techniques).2.2.1,
         (processStyle env stack s techniques).2.2.2)
      else
        ((processStyleList env stack rest (processStyle env stack s techniques).2.2.1).1,
         (processStyle env stack s techniques).2.1 ::
           (processStyleList env stack rest (processStyle env stack s techniques).2.2.1).2.1,
         (processStyleList env stack rest (processStyle env stack s techniques).2.2.1).2.2.1,
         (processStyle env stack s techniques).2.2.2 ++
           (processStyleList env stack rest (processStyle env stack s techniques).2.2.1).2.2.2) := by
  rw [processStyleList]

mutual
theorem processStyle_idem (env : Env) (stack : List StyleData) (s : Style)
    (techniques : List Technique) (t2 : List Technique) :
    processStyle env stack (processStyle env stack s techniques).2.1 t2 =
      ((processStyle env stack s techniques).1,
       (processStyle env stack s techniques).2.1,
       t2,
       (processStyle env stack s techniques).2.2.2) := by
  cases s with
  | group d styles =>
    cases hw : whenFails d env with
    | true =>
      have h1 : processStyle env stack (Style.group d styles) techniques =
          (false, Style.group d styles, techniques, []) := by
        rw [processStyle_group_eq, if_pos hw]
      rw [h1]
      show processStyle env stack (Style.group d styles) t2 =
        (false, Style.group d styles, t2, [])
      rw [processStyle_group_eq, if_pos hw]
    | false =>
      have h1 : processStyle env stack (Style.group d styles) techniques =
          ((processStyleList env (stack ++ [d]) styles techniques).1,
           Style.group d (processStyleList env (stack ++ [d]) styles techniques).2.1,
           (processStyleList env (stack ++ [d]) styles techniques).2.2.1,
           (processStyleList env (stack ++ [d]) styles techniques).2.2.2) := by
        rw [processStyle_group_eq, if_neg (by simp [hw])]
      rw [h1]
      show processStyle env stack
          (Style.group d (processStyleList env (stack ++ [d]) styles techniques).2.1) t2 =
        ((processStyleList env (stack ++ [d]) styles techniques).1,
         Style.group d (processStyleList env (stack ++ [d]) styles techniques).2.1,
         t2,
         (processStyleList env (stack ++ [d]) styles techniques).2.2.2)
      rw [processStyle_group_eq, if_neg (by simp [hw])]
      rw [processStyleList_idem env (stack ++ [d]) styles techniques t2]
  | leaf d =>
    cases hw : whenFails d env with
    | true =>
      rw [processStyle_leaf_when env stack d techniques hw]
      show processStyle env stack (Style.leaf d) t2 = (false, Style.leaf d, t2, [])
      rw [processStyle_leaf_when env stack d t2 hw]
    | false =>
      cases ht : d.technique with
      | none =>
        rw [processStyle_leaf_notech env stack d techniques hw ht]
        show processStyle env stack (Style.leaf d) t2 = (false, Style.leaf d, t2, [])
        rw [processStyle_leaf_notech env stack d t2 hw ht]
      | some name =>
        cases hidx : d.index with
        | none =>
          rw [processStyle_leaf_fresh env stack d techniques name hw ht hidx]
          show processStyle env stack
              (Style.leaf { d with index := some techniques.length }) t2 =
            (decide (d.final = some true),
             Style.leaf { d with index := some techniques.length }, t2,
             [techniques.length])
          rw [processStyle_leaf_hit env stack { d with index := some techniques.length }
            t2 name techniques.length hw ht rfl]
        | some idx =>
          rw [processStyle_leaf_hit env stack d techniques name idx hw ht hidx]
          show processStyle env stack (Style.leaf d) t2 =
            (decide (d.final = some true), Style.leaf d, t2, [idx])
          rw [processStyle_leaf_hit env stack d t2 name idx hw ht hidx]

theorem processStyleList_idem (env : Env) (stack : List StyleData) (l : List Style)
    (techniques : List Technique) (t2 : List Technique) :
    processStyleList env stack (processStyleList env stack l techniques).2.1 t2 =
      ((processStyleList env stack l techniques).1,
       (processStyleList env stack l techniques).2.1,
       t2,
       (processStyleList env stack l techniques).2.2.2) := by
  cases l with
  | nil =>
    show processStyleList env stack [] t2 = (false, [], t2, [])
    rfl
  | cons s rest =>
    have hs := processStyle_idem env stack s techniques t2
    rcases hb : (processStyle env stack s techniques).1 with _ | _
    · have h1 : processStyleList env stack (s :: rest) techniques =
          ((processStyleList env stack rest (processStyle env stack s techniques).2.2.1).1,
           (processStyle env stack s techniques).2.1 ::
             (processStyleList env stack rest (processStyle env stack s techniques).2.2.1).2.1,
           (processStyleList env stack rest (processStyle env stack s techniques).2.2.1).2.2.1,
           (processStyle env stack s techniques).2.2.2 ++
             (processStyleList env stack rest (processStyle env stack s techniques).2.2.1).2.2.2) := by
        rw [processStyleList_cons_eq, if_neg (by simp [hb])]
      rw [h1]
      simp only
      rw [processStyleList_cons_eq]
      rw [hs]
      simp only [hb, Bool.false_eq_true, if_false]
      rw [processStyleList_idem env stack rest (processStyle env stack s techniques).2.2.1 t2]
    · have h1 : processStyleList env stack (s :: rest) techniques =
          (true, (processStyle env stack s techniques).2.1 :: rest,
           (processStyle env stack s techniques).2.2.1,
           (processStyle env stack s techniques).2.2.2) := by
        rw [processStyleList_cons_eq, if_pos (by simp [hb])]
      rw [h1]
      simp only
      rw [processStyleList_cons_eq]
      rw [hs]
      simp only [hb, if_true]
end

theorem getMatchingTechniques_idem (env : Env) (st : EvalState) :
    getMatchingTechniques env (getMatchingTechniques env st).2 =
      ((getMatchingTechniques env st).1, (getMatchingTechniques env st).2) := by
  have h := processStyleList_idem env [] st.styleSet st.techniques
    (processStyleList env [] st.styleSet st.techniques).2.2.1
  show ((processStyleList env []
      (processStyleList env [] st.styleSet st.techniques).2.1
      (processStyleList env [] st.styleSet st.techniques).2.2.1).2.2.2,
    ({ styleSet := (processStyleList env []
        (processStyleList env [] st.styleSet st.techniques).2.1
        (processStyleList env [] st.styleSet st.techniques).2.2.1).2.1
       techniques := (processStyleList env []
        (processStyleList env [] st.styleSet st.techniques).2.1
        (processStyleList env [] st.styleSet st.techniques).2.2.1).2.2.1 } : EvalState)) =
    ((processStyleList env [] st.styleSet st.techniques).2.2.2,
     ({ styleSet := (processStyleList env [] st.styleSet st.techniques).2.1
        techniques := (processStyleList env [] st.styleSet st.techniques).2.2.1 } : EvalState))
  rw [h]

/-- C2: two successive calls of getMatchingTechniques with the same feature
environment return the same list of technique indices and leave the
m_techniques table unchanged, so the returned Technique entries are
element-wise identical (each leaf technique is assembled at most once, on
first match, and later matches return the cached entry). -/
theorem c2_matching_techniques_cached (env : Env) (st : EvalState) :
    (getMatchingTechniques env (getMatchingTechniques env st).2).1 =
      (getMatchingTechniques env st).1 ∧
    (getMatchingTechniques env (getMatchingTechniques env st).2).2 =
      (getMatchingTechniques env st).2 ∧
    List.map
        (fun i =>
          (getMatchingTechniques env (getMatchingTechniques env st).2).2.techniques[i]?)
        (getMatchingTechniques env (getMatchingTechniques env st).2).1 =
      List.map (fun i => (getMatchingTechniques env st).2.techniques[i]?)
        (getMatchingTechniques env st).1 := by
  have h := getMatchingTechniques_idem env st
  refine ⟨?_, ?_, ?_⟩
  · rw [h]
  · rw [h]
  · rw [h]

theorem assoc_find_map_self {α : Type} (l : List (String × α)) (k : String) (v : α)
    (h : l.any (fun kv => kv.1 = k) = true) :
    (l.map (fun kv => if kv.1 = k then (k, v) else kv)).find?
      (fun kv => kv.1 = k) = some (k, v) := by
  induction l with
  | nil => simp at h
  | cons kv rest ih =>
    by_cases hk : kv.1 = k
    · simp [hk]
    · have h2 : rest.any (fun kv => kv.1 = k) = true := by simpa [hk] using h
      simp [hk, ih h2]

theorem assoc_find_append_self {α : Type} (l : List (String × α)) (k : String) (v : α)
    (h : l.any (fun kv => kv.1 = k) = false) :
    (l ++ [(k, v)]).find? (fun kv => kv.1 = k) = some (k, v) := by
  induction l with
  | nil => simp
  | cons kv rest ih =>
    have hk : ¬ kv.1 = k := by
      intro hc
      simp [hc] at h
    have h2 : rest.any (fun kv => kv.1 = k) = false := by
      rcases List.any_eq_false.mp h with h3
      exact List.any_eq_false.mpr (fun x hx => h3 x (List.mem_cons_of_mem _ hx))
    simp [hk, ih h2]

theorem assoc_find_map_ne {α : Type} (l : List (String × α)) (k k2 : String) (v : α)
    (h : ¬ k2 = k) :
    (l.map (fun kv => if kv.1 = k then (k, v) else kv)).find?
      (fun kv => kv.1 = k2) = l.find? (fun kv => kv.1 = k2) := by
  induction l with
  | nil => simp
  | cons kv rest ih =>
    rw [List.map_cons]
    by_cases hk : kv.1 = k
    · have hpk : ¬ ((k, v).1 = k2) := fun hc => h hc.symm
      have hpkv : ¬ (kv.1 = k2) := by
        rw [hk]
        exact fun hc => h hc.symm
      rw [if_pos hk, List.find?_cons_of_neg _ (by simpa using hpk),
        List.find?_cons_of_neg _ (by simpa using hpkv), ih]
    · rw [if_neg hk]
      by_cases hk2 : kv.1 = k2
      · rw [List.find?_cons_of_pos _ (by simpa using hk2),
          List.find?_cons_of_pos _ (by simpa using hk2)]
      · rw [List.find?_cons_of_neg _ (by simpa using hk2),
          List.find?_cons_of_neg _ (by simpa using hk2), ih]

theorem assoc_find_append_ne {α : Type} (l : List (String × α)) (k k2 : String) (v : α)
    (h : ¬ k2 = k) :
    (l ++ [(k, v)]).find? (fun kv => kv.1 = k2) = l.find? (fun kv => kv.1 = k2) := by
  induction l with
  | nil =>
    have hpk : ¬ (k = k2) := fun hc => h hc.symm
    simp [hpk]
  | cons kv rest ih =>
    rw [List.cons_append]
    by_cases hk2 : kv.1 = k2
    · rw [List.find?_cons_of_pos _ (by simpa using hk2),
        List.find?_cons_of_pos _ (by simpa using hk2)]
    · rw [List.find?_cons_of_neg _ (by simpa using hk2),
        List.find?_cons_of_neg _ (by simpa using hk2), ih]

theorem attrGet_assign_self (l : List (String × AttrVal)) (k : String) (v : AttrVal) :
    attrGet (attrAssign l k v) k = some v := by
  unfold attrGet attrAssign
  by_cases h : l.any (fun kv => kv.1 = k) = true
  · rw [if_pos h, assoc_find_map_self l k v h]
    rfl
  · have hf : l.any (fun kv => kv.1 = k) = false := by
      cases hb : l.any (fun kv => kv.1 = k)
      · rfl
      · exact absurd hb h
    rw [if_neg h, assoc_find_append_self l k v hf]
    rfl

theorem attrGet_assign_ne (l : List (String × AttrVal)) (k k2 : String) (v : AttrVal)
    (h : ¬ k2 = k) :
    attrGet (attrAssign l k v) k2 = attrGet l k2 := by
  unfold attrGet attrAssign
  by_cases hany : l.any (fun kv => kv.1 = k) = true
  · rw [if_pos hany, assoc_find_map_ne l k k2 v h]
  · rw [if_neg hany, assoc_find_append_ne l k k2 v h]

theorem groupsGet_set_self (m : List (String × Int)) (g : String) (v : Int) :
    groupsGet (groupsSet m g v) g = some v := by
  unfold groupsGet groupsSet
  by_cases h : m.any (fun kv => kv.1 = g) = true
  · rw [if_pos h, assoc_find_map_self m g v h]
    rfl
  · have hf : m.any (fun kv => kv.1 = g) = false := by
      cases hb : m.any (fun kv => kv.1 = g)
      · rfl
      · exact absurd hb h
    rw [if_neg h, assoc_find_append_self m g v hf]
    rfl

theorem groupsGet_set_ne (m : List (String × Int)) (g g2 : String) (v : Int)
    (h : ¬ g2 = g) :
    groupsGet (groupsSet m g v) g2 = groupsGet m g2 := by
  unfold groupsGet groupsSet
  by_cases hany : m.any (fun kv => kv.1 = g) = true
  · rw [if_pos hany, assoc_find_map_ne m g g2 v h]
  · rw [if_neg hany, assoc_find_append_ne m g g2 v h]

theorem computeBias_none (d : StyleData) (st : RoState)
    (hbg : d.renderOrderBiasGroup = none) : computeBias d st = (d, st) := by
  unfold computeBias
  rw [hbg]

theorem computeBias_stored (d : StyleData) (st : RoState) (g : String) (v : Int)
    (hbg : d.renderOrderBiasGroup = some g)
    (hlook : (if g = "" then none else groupsGet st.renderOrderBiasGroups g) = some v) :
    computeBias d st =
      if v ≠ 0 then ({ d with renderOrder := some v }, st) else (d, st) := by
  unfold computeBias
  rw [hbg]
  simp only
  rw [hlook]
  cases hbr : d.renderOrderBiasRange with
  | none => rfl
  | some p =>
    rcases p with ⟨mn, mx⟩
    rfl

theorem computeBias_idle (d : StyleData) (st : RoState) (g : String)
    (hbg : d.renderOrderBiasGroup = some g)
    (hbr : d.renderOrderBiasRange = none)
    (hlook : (if g = "" then none else groupsGet st.renderOrderBiasGroups g) =
      (none : Option Int)) :
    computeBias d st = (d, st) := by
  unfold computeBias
  rw [hbg]
  simp only
  rw [hlook, hbr]

theorem computeBias_fresh (d : StyleData) (st : RoState) (g : String) (mn mx : Int)
    (hbg : d.renderOrderBiasGroup = some g)
    (hbr : d.renderOrderBiasRange = some (mn, mx))
    (hlook : (if g = "" then none else groupsGet st.renderOrderBiasGroups g) =
      (none : Option Int)) :
    computeBias d st =
      ({ d with renderOrder := some (if mn < 0 then
            st.techniqueRenderOrder + (mn.natAbs : Int)
          else st.techniqueRenderOrder) },
       { techniqueRenderOrder := st.techniqueRenderOrder + (mn.natAbs : Int) + mx + 1
         renderOrderBiasGroups :=
           if g = "" then st.renderOrderBiasGroups
           else groupsSet st.renderOrderBiasGroups g
             (if mn < 0 then st.techniqueRenderOrder + (mn.natAbs : Int)
              else st.techniqueRenderOrder) }) := by
  unfold computeBias
  rw [hbg]
  simp only
  rw [hlook, hbr]

theorem computeBias_fields (d : StyleData) (st : RoState) :
    (computeBias d st).1.technique = d.technique ∧
    (computeBias d st).1.attr = d.attr ∧
    (computeBias d st).1.renderOrderBiasGroup = d.renderOrderBiasGroup ∧
    (computeBias d st).1.renderOrderBiasRange = d.renderOrderBiasRange := by
  cases hbg : d.renderOrderBiasGroup with
  | none =>
    rw [computeBias_none d st hbg]
    exact ⟨rfl, rfl, hbg, rfl⟩
  | some g =>
    cases hlk : (if g = "" then none else groupsGet st.renderOrderBiasGroups g) with
    | some v =>
      rw [computeBias_stored d st g v hbg hlk]
      by_cases hv : v ≠ 0
      · rw [if_pos hv]
        exact ⟨rfl, rfl, hbg, rfl⟩
      · rw [if_neg hv]
        exact ⟨rfl, rfl, hbg, rfl⟩
    | none =>
      cases hbr : d.renderOrderBiasRange with
      | none =>
        rw [computeBias_idle d st g hbg hbr hlk]
        exact ⟨rfl, rfl, hbg, hbr⟩
      | some p =>
        rcases p with ⟨mn, mx⟩
        rw [computeBias_fresh d st g mn mx hbg hbr hlk]
        exact ⟨rfl, rfl, hbg, hbr⟩

theorem computeBias_counter_le (d : StyleData) (st : RoState)
    (h : rangesOkData d = true) :
    st.techniqueRenderOrder ≤ (computeBias d st).2.techniqueRenderOrder := by
  cases hbg : d.renderOrderBiasGroup with
  | none =>
    rw [computeBias_none d st hbg]
  | some g =>
    cases hlk : (if g = "" then none else groupsGet st.renderOrderBiasGroups g) with
    | some v =>
      rw [computeBias_stored d st g v hbg hlk]
      by_cases hv : v ≠ 0
      · rw [if_pos hv]
      · rw [if_neg hv]
    | none =>
      cases hbr : d.renderOrderBiasRange with
      | none =>
        rw [computeBias_idle d st g hbg hbr hlk]
      | some p =>
        rcases p with ⟨mn, mx⟩
        rw [computeBias_fresh d st g mn mx hbg hbr hlk]
        have hmx : (0 : Int) ≤ mx := by
          unfold rangesOkData at h
          rw [hbr] at h
          exact of_decide_eq_true h
        have hmn : (0 : Int) ≤ (mn.natAbs : Int) := Int.ofNat_nonneg _
        show st.techniqueRenderOrder ≤
          st.techniqueRenderOrder + (mn.natAbs : Int) + mx + 1
        omega

theorem assignAuto_keep (d : StyleData) (st : RoState)
    (h : autoQualifies d = false) : assignAuto d st = (d, st) := by
  obtain ⟨wc, tq, att, ro, bg, br, bp, lp, tr, fi, ix⟩ := d
  cases tq with
  | none => rfl
  | some tn =>
    cases att with
    | none => rfl
    | some attrs =>
      have hro : ¬ (attrGet attrs "renderOrder" = none) := by
        simpa [autoQualifies] using h
      simp only [assignAuto]
      rw [if_neg hro]

theorem assignAuto_assign (d : StyleData) (st : RoState)
    (attrs : List (String × AttrVal)) (tn : String)
    (ht : d.technique = some tn) (ha : d.attr = some attrs)
    (hro : attrGet attrs "renderOrder" = none) :
    assignAuto d st =
      ({ d with attr := some (attrAssign attrs "_renderOrderAuto"
          (AttrVal.plain (SValue.ofInt st.techniqueRenderOrder))) },
       { st with techniqueRenderOrder := st.techniqueRenderOrder + 1 }) := by
  obtain ⟨wc, tq, att, ro, bg, br, bp, lp, tr, fi, ix⟩ := d
  have ht2 : tq = some tn := ht
  have ha2 : att = some attrs := ha
  subst ht2
  subst ha2
  simp only [assignAuto]
  rw [if_pos hro]

theorem assignAuto_pres (d : StyleData) (st : RoState) :
    (assignAuto d st).1.renderOrderBiasGroup = d.renderOrderBiasGroup ∧
    (assignAuto d st).1.renderOrder = d.renderOrder ∧
    (assignAuto d st).2.renderOrderBiasGroups = st.renderOrderBiasGroups := by
  unfold assignAuto
  split
  · exact ⟨rfl, rfl, rfl⟩
  · split
    · exact ⟨rfl, rfl, rfl⟩
    · split
      · exact ⟨rfl, rfl, rfl⟩
      · exact ⟨rfl, rfl, rfl⟩

theorem bool_and_split {a b : Bool} (h : (a && b) = true) :
    a = true ∧ b = true := by
  cases a <;> cases b <;> simp_all

theorem autosBetween_mem (lo hi : Int) (l : List (Option Int)) (o : Option Int)
    (h : autosBetween lo hi l = true) (ho : o ∈ l) :
    ∃ v, o = some v ∧ lo ≤ v ∧ v < hi := by
  unfold autosBetween at h
  have h2 := List.all_eq_true.mp h o ho
  cases o with
  | none => simp at h2
  | some v => exact ⟨v, rfl, of_decide_eq_true h2⟩

theorem autosBetween_mono (lo hi lo2 hi2 : Int) (l : List (Option Int))
    (h : autosBetween lo2 hi2 l = true) (h1 : lo ≤ lo2) (h2 : hi2 ≤ hi) :
    autosBetween lo hi l = true := by
  unfold autosBetween at *
  refine List.all_eq_true.mpr (fun o ho => ?_)
  have h3 := List.all_eq_true.mp h o ho
  cases o with
  | none => simp at h3
  | some v =>
    have hv := of_decide_eq_true h3
    exact decide_eq_true ⟨le_trans h1 hv.1, lt_of_lt_of_le hv.2 h2⟩

theorem autosBetween_append (lo hi : Int) (l1 l2 : List (Option Int))
    (h1 : autosBetween lo hi l1 = true) (h2 : autosBetween lo hi l2 = true) :
    autosBetween lo hi (l1 ++ l2) = true := by
  unfold autosBetween at *
  rw [List.all_append, h1, h2]
  rfl

theorem chainLt_append (l1 l2 : List (Option Int)) (h1 : chainLt l1 = true)
    (h2 : chainLt l2 = true)
    (hx : ∀ a ∈ l1, ∀ b ∈ l2, autoLtB a b = true) :
    chainLt (l1 ++ l2) = true := by
  induction l1 with
  | nil => simpa using h2
  | cons a rest ih =>
    cases rest with
    | nil =>
      cases l2 with
      | nil => rfl
      | cons b l2t =>
        have hab := hx a (by simp) b (by simp)
        show (autoLtB a b && chainLt (b :: l2t)) = true
        rw [hab, h2]
        rfl
    | cons b rest2 =>
      have hparts := bool_and_split
        (show (autoLtB a b && chainLt (b :: rest2)) = true from h1)
      have ih2 := ih hparts.2
        (fun y hy b2 hb2 => hx y (List.mem_cons_of_mem _ hy) b2 hb2)
      show (autoLtB a b && chainLt ((b :: rest2) ++ l2)) = true
      rw [hparts.1, ih2]
      rfl

theorem collectAutos_leaf_notqual (d2 : StyleData)
    (h : autoQualifies d2 = false) : collectAutos (Style.leaf d2) = [] := by
  show (if autoQualifies d2 then [autoOf d2] else []) = []
  rw [if_neg (by simp [h])]

theorem collectAutos_leaf_qual (d2 : StyleData)
    (h : autoQualifies d2 = true) :
    collectAutos (Style.leaf d2) = [autoOf d2] := by
  show (if autoQualifies d2 then [autoOf d2] else []) = _
  rw [if_pos h]

theorem autos_leaf_keep (d : StyleData) (st : RoState)
    (hd : rangesOkData d = true)
    (hq : autoQualifies (computeBias d st).1 = false) :
    st.techniqueRenderOrder ≤
      (computeDefaultRenderOrder (Style.leaf d) st).2.techniqueRenderOrder ∧
    autosBetween st.techniqueRenderOrder
      (computeDefaultRenderOrder (Style.leaf d) st).2.techniqueRenderOrder
      (collectAutos (computeDefaultRenderOrder (Style.leaf d) st).1) = true ∧
    chainLt (collectAutos (computeDefaultRenderOrder (Style.leaf d) st).1) = true := by
  have hred : computeDefaultRenderOrder (Style.leaf d) st =
      (Style.leaf (assignAuto (computeBias d st).1 (computeBias d st).2).1,
       (assignAuto (computeBias d st).1 (computeBias d st).2).2) := rfl
  rw [hred, assignAuto_keep _ _ hq, collectAutos_leaf_notqual _ hq]
  exact ⟨computeBias_counter_le d st hd, rfl, rfl⟩

mutual
theorem autos_spec (s : Style) (st : RoState) (h : rangesOk s = true) :
    st.techniqueRenderOrder ≤
      (computeDefaultRenderOrder s st).2.techniqueRenderOrder ∧
    autosBetween st.techniqueRenderOrder
      (computeDefaultRenderOrder s st).2.techniqueRenderOrder
      (collectAutos (computeDefaultRenderOrder s st).1) = true ∧
    chainLt (collectAutos (computeDefaultRenderOrder s st).1) = true := by
  cases s with
  | group d styles =>
    have hparts := bool_and_split
      (show (rangesOkData d && rangesOkList styles) = true from h)
    have hred : computeDefaultRenderOrder (Style.group d styles) st =
        (Style.group (computeBias d st).1
          (computeDefaultRenderOrderList styles (computeBias d st).2).1,
         (computeDefaultRenderOrderList styles (computeBias d st).2).2) := rfl
    rw [hred]
    have hb := computeBias_counter_le d st hparts.1
    obtain ⟨ihle, ihbet, ihch⟩ :=
      autosList_spec styles (computeBias d st).2 hparts.2
    refine ⟨le_trans hb ihle, ?_, ?_⟩
    · exact autosBetween_mono _ _ _ _ _ ihbet hb (le_refl _)
    · exact ihch
  | leaf d =>
    have hd : rangesOkData d = true := h
    have hf := computeBias_fields d st
    cases ht : d.technique with
    | none =>
      exact autos_leaf_keep d st hd (by simp [autoQualifies, hf.1, ht])
    | some tn =>
      cases ha : d.attr with
      | none =>
        exact autos_leaf_keep d st hd
          (by simp [autoQualifies, hf.1, ht, hf.2.1, ha])
      | some attrs =>
        cases hro : attrGet attrs "renderOrder" with
        | some x =>
          exact autos_leaf_keep d st hd
            (by simp [autoQualifies, hf.1, ht, hf.2.1, ha, hro])
        | none =>
          have hb := computeBias_counter_le d st hd
          have he_t : (computeBias d st).1.technique = some tn := hf.1.trans ht
          have he_a : (computeBias d st).1.attr = some attrs := hf.2.1.trans ha
          have hred : computeDefaultRenderOrder (Style.leaf d) st =
              (Style.leaf (assignAuto (computeBias d st).1 (computeBias d st).2).1,
               (assignAuto (computeBias d st).1 (computeBias d st).2).2) := rfl
          rw [hred, assignAuto_assign _ _ attrs tn he_t he_a hro]
          have hq : autoQualifies { (computeBias d st).1 with
              attr := some (attrAssign attrs "_renderOrderAuto" (AttrVal.plain
                (SValue.ofInt (computeBias d st).2.techniqueRenderOrder))) } = true := by
            unfold autoQualifies
            rw [show ({ (computeBias d st).1 with
                attr := some (attrAssign attrs "_renderOrderAuto" (AttrVal.plain
                  (SValue.ofInt (computeBias d st).2.techniqueRenderOrder))) } :
                StyleData).technique = (computeBias d st).1.technique from rfl, he_t]
            simp only [Option.isSome_some, Bool.true_and]
            show decide (attrGet (attrAssign attrs "_renderOrderAuto" (AttrVal.plain
              (SValue.ofInt (computeBias d st).2.techniqueRenderOrder)))
              "renderOrder" = none) = true
            rw [attrGet_assign_ne attrs "_renderOrderAuto" "renderOrder" _
              (by decide), hro]
            decide
          rw [collectAutos_leaf_qual _ hq]
          have hauto : autoOf { (computeBias d st).1 with
              attr := some (attrAssign attrs "_renderOrderAuto" (AttrVal.plain
                (SValue.ofInt (computeBias d st).2.techniqueRenderOrder))) } =
              some (computeBias d st).2.techniqueRenderOrder := by
            show (match attrGet (attrAssign attrs "_renderOrderAuto" (AttrVal.plain
                (SValue.ofInt (computeBias d st).2.techniqueRenderOrder)))
                "_renderOrderAuto" with
              | some (AttrVal.plain (SValue.ofInt v)) => some v
              | _ => none) = some (computeBias d st).2.techniqueRenderOrder
            rw [attrGet_assign_self]
          rw [hauto]
          refine ⟨?_, ?_, rfl⟩
          · show st.techniqueRenderOrder ≤
              (computeBias d st).2.techniqueRenderOrder + 1
            omega
          · show ([some (computeBias d st).2.techniqueRenderOrder] :
              List (Option Int)).all _ = true
            simp only [List.all_cons, List.all_nil, Bool.and_true]
            show decide (st.techniqueRenderOrder ≤
              (computeBias d st).2.techniqueRenderOrder ∧
              (computeBias d st).2.techniqueRenderOrder <
                (computeBias d st).2.techniqueRenderOrder + 1) = true
            exact decide_eq_true ⟨hb, by omega⟩

theorem autosList_spec (l : List Style) (st : RoState)
    (h : rangesOkList l = true) :
    st.techniqueRenderOrder ≤
      (computeDefaultRenderOrderList l st).2.techniqueRenderOrder ∧
    autosBetween st.techniqueRenderOrder
      (computeDefaultRenderOrderList l st).2.techniqueRenderOrder
      (collectAutosList (computeDefaultRenderOrderList l st).1) = true ∧
    chainLt (collectAutosList (computeDefaultRenderOrderList l st).1) = true := by
  cases l with
  | nil => exact ⟨le_refl _, rfl, rfl⟩
  | cons s rest =>
    have hparts := bool_and_split
      (show (rangesOk s && rangesOkList rest) = true from h)
    have hred : computeDefaultRenderOrderList (s :: rest) st =
        ((computeDefaultRenderOrder s st).1 ::
          (computeDefaultRenderOrderList rest (computeDefaultRenderOrder s st).2).1,
         (computeDefaultRenderOrderList rest (computeDefaultRenderOrder s st).2).2) := rfl
    rw [hred]
    obtain ⟨l1, b1, c1⟩ := autos_spec s st hparts.1
    obtain ⟨l2, b2, c2⟩ :=
      autosList_spec rest (computeDefaultRenderOrder s st).2 hparts.2
    have hcoll : collectAutosList ((computeDefaultRenderOrder s st).1 ::
        (computeDefaultRenderOrderList rest (computeDefaultRenderOrder s st).2).1) =
        collectAutos (computeDefaultRenderOrder s st).1 ++
          collectAutosList
            (computeDefaultRenderOrderList rest (computeDefaultRenderOrder s st).2).1 := rfl
    rw [hcoll]
    refine ⟨le_trans l1 l2, ?_, ?_⟩
    · exact autosBetween_append _ _ _ _
        (autosBetween_mono _ _ _ _ _ b1 (le_refl _) l2)
        (autosBetween_mono _ _ _ _ _ b2 l1 (le_refl _))
    · refine chainLt_append _ _ c1 c2 ?_
      intro a hamem b hbmem
      obtain ⟨va, hva, hva1, hva2⟩ := autosBetween_mem _ _ _ _ b1 hamem
      obtain ⟨vb, hvb, hvb1, hvb2⟩ := autosBetween_mem _ _ _ _ b2 hbmem
      rw [hva, hvb]
      show decide (va < vb) = true
      exact decide_eq_true (lt_of_lt_of_le hva2 hvb1)
end

theorem computeBias_share (d : StyleData) (st : RoState) (g : String) (v : Int)
    (hg : ¬ g = "") (hv : ¬ v = 0)
    (hst : groupsGet st.renderOrderBiasGroups g = some v) :
    groupsGet (computeBias d st).2.renderOrderBiasGroups g = some v ∧
    ((computeBias d st).1.renderOrderBiasGroup = some g →
      (computeBias d st).1.renderOrder = some v) := by
  cases hbg : d.renderOrderBiasGroup with
  | none =>
    rw [computeBias_none d st hbg]
    refine ⟨hst, fun hc => ?_⟩
    rw [hbg] at hc
    cases hc
  | some g2 =>
    by_cases hge : g2 = ""
    · have hlook : (if g2 = "" then none
          else groupsGet st.renderOrderBiasGroups g2) = (none : Option Int) :=
        if_pos hge
      cases hbr : d.renderOrderBiasRange with
      | none =>
        rw [computeBias_idle d st g2 hbg hbr hlook]
        refine ⟨hst, fun hc => ?_⟩
        rw [hbg] at hc
        injection hc with h3
        exact absurd (h3 ▸ hge) hg
      | some p =>
        rcases p with ⟨mn, mx⟩
        rw [computeBias_fresh d st g2 mn mx hbg hbr hlook]
        constructor
        · show groupsGet (if g2 = "" then st.renderOrderBiasGroups
            else groupsSet st.renderOrderBiasGroups g2
              (if mn < 0 then st.techniqueRenderOrder + (mn.natAbs : Int)
               else st.techniqueRenderOrder)) g = some v
          rw [if_pos hge]
          exact hst
        · intro hc
          have hc2 : d.renderOrderBiasGroup = some g := hc
          rw [hbg] at hc2
          injection hc2 with h3
          exact absurd (h3 ▸ hge) hg
    · by_cases hgg : g2 = g
      · subst hgg
        have hlook : (if g2 = "" then none
            else groupsGet st.renderOrderBiasGroups g2) = some v := by
          rw [if_neg hge]
          exact hst
        rw [computeBias_stored d st g2 v hbg hlook, if_pos hv]
        exact ⟨hst, fun _ => rfl⟩
      · cases hlk : groupsGet st.renderOrderBiasGroups g2 with
        | some v2 =>
          have hlook : (if g2 = "" then none
              else groupsGet st.renderOrderBiasGroups g2) = some v2 := by
            rw [if_neg hge]
            exact hlk
          rw [computeBias_stored d st g2 v2 hbg hlook]
          by_cases hv2 : v2 ≠ 0
          · rw [if_pos hv2]
            refine ⟨hst, fun hc => ?_⟩
            have hc2 : d.renderOrderBiasGroup = some g := hc
            rw [hbg] at hc2
            injection hc2 with h3
            exact absurd h3 hgg
          · rw [if_neg hv2]
            refine ⟨hst, fun hc => ?_⟩
            rw [hbg] at hc
            injection hc with h3
            exact absurd h3 hgg
        | none =>
          have hlook : (if g2 = "" then none
              else groupsGet st.renderOrderBiasGroups g2) = (none : Option Int) := by
            rw [if_neg hge]
            exact hlk
          cases hbr : d.renderOrderBiasRange with
          | none =>
            rw [computeBias_idle d st g2 hbg hbr hlook]
            refine ⟨hst, fun hc => ?_⟩
            rw [hbg] at hc
            injection hc with h3
            exact absurd h3 hgg
          | some p =>
            rcases p with ⟨mn, mx⟩
            rw [computeBias_fresh d st g2 mn mx hbg hbr hlook]
            constructor
            · show groupsGet (if g2 = "" then st.renderOrderBiasGroups
                else groupsSet st.renderOrderBiasGroups g2
                  (if mn < 0 then st.techniqueRenderOrder + (mn.natAbs : Int)
                   else st.techniqueRenderOrder)) g = some v
              rw [if_neg hge, groupsGet_set_ne _ _ _ _
                (fun hc => hgg hc.symm)]
              exact hst
            · intro hc
              have hc2 : d.renderOrderBiasGroup = some g := hc
              rw [hbg] at hc2
              injection hc2 with h3
              exact absurd h3 hgg

mutual
theorem groupShare_spec (s : Style) (st : RoState) (g : String) (v : Int)
    (hg : ¬ g = "") (hv : ¬ v = 0)
    (hst : groupsGet st.renderOrderBiasGroups g = some v) :
    groupsGet (computeDefaultRenderOrder s st).2.renderOrderBiasGroups g = some v ∧
    ∀ o ∈ groupMembers g (computeDefaultRenderOrder s st).1, o = some v := by
  cases s with
  | group d styles =>
    have hcb := computeBias_share d st g v hg hv hst
    have hred : computeDefaultRenderOrder (Style.group d styles) st =
        (Style.group (computeBias d st).1
          (computeDefaultRenderOrderList styles (computeBias d st).2).1,
         (computeDefaultRenderOrderList styles (computeBias d st).2).2) := rfl
    rw [hred]
    obtain ⟨ihst, ihmem⟩ :=
      groupShareList_spec styles (computeBias d st).2 g v hg hv hcb.1
    refine ⟨ihst, fun o ho => ?_⟩
    have hm : groupMembers g (Style.group (computeBias d st).1
        (computeDefaultRenderOrderList styles (computeBias d st).2).1) =
        (if (computeBias d st).1.renderOrderBiasGroup = some g then
          [(computeBias d st).1.renderOrder] else []) ++
          groupMembersList g
            (computeDefaultRenderOrderList styles (computeBias d st).2).1 := rfl
    rw [hm] at ho
    rcases List.mem_append.mp ho with h1 | h2
    · by_cases hcg : (computeBias d st).1.renderOrderBiasGroup = some g
      · rw [if_pos hcg] at h1
        have h3 := List.mem_singleton.mp h1
        rw [h3]
        exact hcb.2 hcg
      · rw [if_neg hcg] at h1
        exact absurd h1 (List.not_mem_nil o)
    · exact ihmem o h2
  | leaf d =>
    have hcb := computeBias_share d st g v hg hv hst
    have hap := assignAuto_pres (computeBias d st).1 (computeBias d st).2
    have hred : computeDefaultRenderOrder (Style.leaf d) st =
        (Style.leaf (assignAuto (computeBias d st).1 (computeBias d st).2).1,
         (assignAuto (computeBias d st).1 (computeBias d st).2).2) := rfl
    rw [hred]
    constructor
    · rw [hap.2.2]
      exact hcb.1
    · intro o ho
      by_cases hcg : (assignAuto (computeBias d st).1
          (computeBias d st).2).1.renderOrderBiasGroup = some g
      · have hm : groupMembers g (Style.leaf (assignAuto (computeBias d st).1
            (computeBias d st).2).1) =
            [(assignAuto (computeBias d st).1 (computeBias d st).2).1.renderOrder] := by
          show (if (assignAuto (computeBias d st).1
              (computeBias d st).2).1.renderOrderBiasGroup = some g then
            [(assignAuto (computeBias d st).1
              (computeBias d st).2).1.renderOrder] else []) = _
          rw [if_pos hcg]
        rw [hm] at ho
        have ho2 := List.mem_singleton.mp ho
        rw [ho2, hap.2.1]
        refine hcb.2 ?_
        rw [← hap.1]
        exact hcg
      · have hm : groupMembers g (Style.leaf (assignAuto (computeBias d st).1
            (computeBias d st).2).1) = [] := by
          show (if (assignAuto (computeBias d st).1
              (computeBias d st).2).1.renderOrderBiasGroup = some g then
            [(assignAuto (computeBias d st).1
              (computeBias d st).2).1.renderOrder] else []) = _
          rw [if_neg hcg]
        rw [hm] at ho
        exact absurd ho (List.not_mem_nil o)

theorem groupShareList_spec (l : List Style) (st : RoState) (g : String) (v : Int)
    (hg : ¬ g = "") (hv : ¬ v = 0)
    (hst : groupsGet st.renderOrderBiasGroups g = some v) :
    groupsGet (computeDefaultRenderOrderList l st).2.renderOrderBiasGroups g =
      some v ∧
    ∀ o ∈ groupMembersList g (computeDefaultRenderOrderList l st).1, o = some v := by
  cases l with
  | nil => exact ⟨hst, fun o ho => absurd ho (List.not_mem_nil o)⟩
  | cons s rest =>
    have hred : computeDefaultRenderOrderList (s :: rest) st =
        ((computeDefaultRenderOrder s st).1 ::
          (computeDefaultRenderOrderList rest (computeDefaultRenderOrder s st).2).1,
         (computeDefaultRenderOrderList rest (computeDefaultRenderOrder s st).2).2) := rfl
    rw [hred]
    obtain ⟨h1st, h1mem⟩ := groupShare_spec s st g v hg hv hst
    obtain ⟨h2st, h2mem⟩ :=
      groupShareList_spec rest (computeDefaultRenderOrder s st).2 g v hg hv h1st
    refine ⟨h2st, fun o ho => ?_⟩
    have hm : groupMembersList g ((computeDefaultRenderOrder s st).1 ::
        (computeDefaultRenderOrderList rest (computeDefaultRenderOrder s st).2).1) =
        groupMembers g (computeDefaultRenderOrder s st).1 ++
          groupMembersList g
            (computeDefaultRenderOrderList rest (computeDefaultRenderOrder s st).2).1 := rfl
    rw [hm] at ho
    rcases List.mem_append.mp ho with ha | hb
    · exact h1mem o ha
    · exact h2mem o hb
end

/-- C3 (amended): during StyleSetEvaluator construction (a) when every
renderOrderBiasRange in the style set has a non-negative upper bound, the
automatic render orders of qualifying leaves (technique present, attr map
present, no explicit renderOrder attribute) are all assigned and strictly
increasing in document (depth-first) order; (b) the first member of a
non-empty-named bias group with no stored order and a bias range derives
the group order from its range and stores it; (c) once a non-zero order is
stored for a non-empty group name, every later node carrying that group
receives exactly that order, and the stored order survives the traversal.
(The literal claim fails: a negative range upper bound moves the counter
backwards, and a stored order of zero is falsy so it never propagates.) -/
theorem c3_default_render_order :
    (∀ ss : List Style, rangesOkList ss = true →
        chainLt (collectAutosList (styleSetInit ss).1) = true ∧
        autosBetween 0 (styleSetInit ss).2.techniqueRenderOrder
          (collectAutosList (styleSetInit ss).1) = true) ∧
    (∀ d : StyleData, ∀ st : RoState, ∀ g : String, ∀ mn mx : Int,
        ¬ g = "" → d.renderOrderBiasGroup = some g →
        d.renderOrderBiasRange = some (mn, mx) →
        groupsGet st.renderOrderBiasGroups g = none →
        (computeBias d st).1.renderOrder =
          some (if mn < 0 then st.techniqueRenderOrder + (mn.natAbs : Int)
                else st.techniqueRenderOrder) ∧
        groupsGet (computeBias d st).2.renderOrderBiasGroups g =
          (computeBias d st).1.renderOrder ∧
        (computeBias d st).2.techniqueRenderOrder =
          st.techniqueRenderOrder + (mn.natAbs : Int) + mx + 1) ∧
    (∀ l : List Style, ∀ st : RoState, ∀ g : String, ∀ v : Int,
        ¬ g = "" → ¬ v = 0 →
        groupsGet st.renderOrderBiasGroups g = some v →
        groupsGet
            (computeDefaultRenderOrderList l st).2.renderOrderBiasGroups g =
          some v ∧
        (groupMembersList g (computeDefaultRenderOrderList l st).1).all
          (fun o => decide (o = some v)) = true) := by
  refine ⟨?_, ?_, ?_⟩
  · intro ss hr
    obtain ⟨_, hbet, hch⟩ := autosList_spec ss
      { techniqueRenderOrder := 0, renderOrderBiasGroups := [] } hr
    exact ⟨hch, hbet⟩
  · intro d st g mn mx hg hbg hbr hstn
    have hlook : (if g = "" then none
        else groupsGet st.renderOrderBiasGroups g) = (none : Option Int) := by
      rw [if_neg hg]
      exact hstn
    rw [computeBias_fresh d st g mn mx hbg hbr hlook]
    refine ⟨rfl, ?_, rfl⟩
    show groupsGet (if g = "" then st.renderOrderBiasGroups
      else groupsSet st.renderOrderBiasGroups g
        (if mn < 0 then st.techniqueRenderOrder + (mn.natAbs : Int)
         else st.techniqueRenderOrder)) g = _
    rw [if_neg hg, groupsGet_set_self]
  · intro l st g v hg hv hst
    obtain ⟨h1, h2⟩ := groupShareList_spec l st g v hg hv hst
    refine ⟨h1, List.all_eq_true.mpr (fun o ho => decide_eq_true (h2 o ho))⟩

/-- C3 counterexample to the literal claim: on cset3 the qualifying leaves
receive autos 0 then -3 (not increasing: the "g" range (0, -5) moves the
counter backwards), and the two members of bias group "h" end with orders
some 0 and none (the stored order 0 is falsy and never propagates). -/
theorem c3_counterexample :
    collectAutosList (styleSetInit cset3).1 = [some 0, some (-3)] ∧
    chainLt (collectAutosList (styleSetInit cset3).1) = false ∧
    groupMembersList "h" (styleSetInit cset3).1 = [some 0, none] := by
  refine ⟨?_, ?_, ?_⟩ <;> decide

/-- Witness instantiating every part of the amended C3 theorem at concrete
inputs. -/
theorem c3_default_render_order_witness :
    (rangesOkList csetW = true ∧
      chainLt (collectAutosList (styleSetInit csetW).1) = true ∧
      autosBetween 0 (styleSetInit csetW).2.techniqueRenderOrder
        (collectAutosList (styleSetInit csetW).1) = true) ∧
    ((computeBias dW stW).1.renderOrder =
        some (if (-2 : Int) < 0 then
          stW.techniqueRenderOrder + (((-2 : Int).natAbs : Nat) : Int)
        else stW.techniqueRenderOrder) ∧
      groupsGet (computeBias dW stW).2.renderOrderBiasGroups "g" =
        (computeBias dW stW).1.renderOrder ∧
      (computeBias dW stW).2.techniqueRenderOrder =
        stW.techniqueRenderOrder + (((-2 : Int).natAbs : Nat) : Int) + 3 + 1) ∧
    (groupsGet
        (computeDefaultRenderOrderList lW stW2).2.renderOrderBiasGroups "g" =
      some 7 ∧
      (groupMembersList "g" (computeDefaultRenderOrderList lW stW2).1).all
        (fun o => decide (o = some 7)) = true) := by
  refine ⟨?_, ?_, ?_⟩
  · have h := c3_default_render_order.1 csetW (by decide)
    exact ⟨by decide, h.1, h.2⟩
  · exact c3_default_render_order.2.1 dW stW "g" (-2) 3 (by decide) rfl rfl rfl
  · exact c3_default_render_order.2.2 lW stW2 "g" 7 (by decide) (by decide) rfl

end HarpSpec
